import Mathlib

/-!
Verification development for the portfolio content generator
(`generate_content.py`): a shallow embedding of its region-splice engine,
entity extraction, and tag/writeup consistency operations, together with
proofs about the claims of the specification.

Documents and Python strings are modelled as `List Char`.
-/

set_option maxRecDepth 4000

namespace Portfolio

abbrev Str := List Char

/-! ### Substring search: the model of Python `str.find(sub, start)` -/
/-- `needle` occurs in `hay` at index `i` (the occurrence must fit inside `hay`). -/
def isMatchAt (hay needle : Str) (i : Nat) : Bool :=
  List.isPrefixOf needle (hay.drop i)

/-- Worker for `findFrom`: tries indices `i, i+1, ...`, `fuel` of them. -/
def findFromAux (hay needle : Str) : Nat → Nat → Option Nat
  | 0, _ => none
  | fuel + 1, i =>
    if isMatchAt hay needle i then some i else findFromAux hay needle fuel (i + 1)

/-- Python `hay.find(needle, start)` for a nonempty needle: the least index
`i ≥ start` at which `needle` occurs in `hay`, `none` standing for `-1`. -/
def findFrom (hay needle : Str) (start : Nat) : Option Nat :=
  findFromAux hay needle (hay.length + 1 - start) start

/-! ### The region splice engine

`_update_writeup_tags` (generate_content.py:204-234) finds `start_marker`,
then searches `end_marker` from `start_pos + len(start_marker)`, and rebuilds
`content[:start_pos+len(start_marker)] + sep1 + X + sep2 + content[end_pos:]`.

`_update_single_tag_page` (:486-528) and `_update_writeups_page` (:921-958)
do the same but search `end_marker` from `start_pos` (not strictly after the
start marker) and use a single newline as both separators. -/
/-- Generic splice as the code performs it: the end-marker search starts at
`searchStart` (which differs between the call sites). -/
def spliceAt (content sm em pre post x : Str) (searchStart : Nat → Nat) : Option Str :=
  match findFrom content sm 0 with
  | none => none
  | some s =>
    match findFrom content em (searchStart s) with
    | none => none
    | some e => some (content.take (s + sm.length) ++ pre ++ x ++ post ++ content.drop e)

/-- Start marker of `_update_writeup_tags` (line 214). -/
def tagContainerStart : Str := "<div class=\"tag-container mb-4\">".data

/-- End marker of `_update_writeup_tags` (line 215). -/
def divClose : Str := "</div>".data

/-- First separator inserted by `_update_writeup_tags` (line 228): a newline
and 24 spaces. -/
def tagSep1 : Str := "\n                        ".data

/-- Second separator inserted by `_update_writeup_tags` (line 228): a newline
and 20 spaces. -/
def tagSep2 : Str := "\n                    ".data

/-- Start marker of `_update_single_tag_page` / `_update_writeups_page`
(lines 506, 933). -/
def writeupsContainerStart : Str := "<div class=\"row\" id=\"writeupsContainer\">".data

/-- End marker of `_update_single_tag_page` / `_update_writeups_page`
(lines 507, 934). -/
def mainClose : Str := "</div>\n\n                </main>".data

/-- Newline separator used by the listing-page splices (lines 520, 951). -/
def nlSep : Str := "\n".data

/-- The tag-region rewrite of `_update_writeup_tags` on a writeup document:
`x` stands for the rendered `tag_links` text (line 211). The end-marker
search starts strictly after the start marker (line 222). -/
def updateWriteupTagsDoc (content x : Str) : Option Str :=
  spliceAt content tagContainerStart divClose tagSep1 tagSep2 x
    (fun s => s + tagContainerStart.length)

/-- The per-tag-page rewrite of `_update_single_tag_page`: `x` stands for the
rendered writeup cards. The end-marker search starts at `start_pos`
(line 514). -/
def updateTagPageDoc (content x : Str) : Option Str :=
  spliceAt content writeupsContainerStart mainClose nlSep nlSep x (fun s => s)

/-- The writeups-listing rewrite of `_update_writeups_page`: `x` stands for
the rendered writeups grid. The end-marker search starts at `start_pos`
(line 942). -/
def updateWriteupsPageDoc (content x : Str) : Option Str :=
  spliceAt content writeupsContainerStart mainClose nlSep nlSep x (fun s => s)

/-- Modelled from the spec: §4.4's splice algorithm — find the first
occurrence of `sm`; if absent fail; search `em` strictly after the end of
`sm`'s match; if absent fail; otherwise keep everything up to and including
`sm`, insert separators and the new inner text, and keep everything from the
matched `em` on. -/
def spliceSpec (content sm em pre post x : Str) : Option Str :=
  match findFrom content sm 0 with
  | none => none
  | some s =>
    match findFrom content em (s + sm.length) with
    | none => none
    | some e => some (content.take (s + sm.length) ++ pre ++ x ++ post ++ content.drop e)

/-- Reading a region back out of a document: the text strictly between the
start marker and the end marker matched strictly after it. -/
def readRegion (content sm em : Str) : Option Str :=
  match findFrom content sm 0 with
  | none => none
  | some s =>
    match findFrom content em (s + sm.length) with
    | none => none
    | some e => some ((content.drop (s + sm.length)).take (e - (s + sm.length)))

/-- No occurrence of `em` can begin inside an occurrence of `sm`: for every
`k < sm.length`, `em` is not a prefix of `sm.drop k` and `sm.drop k` is not a
prefix of `em`. Decidable check used for the concrete marker pairs. -/
def noEarlyEm (sm em : Str) : Bool :=
  (List.range sm.length).all fun k =>
    !(List.isPrefixOf em (sm.drop k) || List.isPrefixOf (sm.drop k) em)

/-- Sample writeup document for concrete evaluations: the tag-region marker
pair around old inner text, with surrounding text on both sides. -/
def sampleTagDoc : Str :=
  "HEAD".data ++ tagContainerStart ++ "OLD".data ++ divClose ++ "TAIL".data

/-- Sample listing document: the writeups-container marker pair around old
inner text. -/
def sampleListingDoc : Str :=
  writeupsContainerStart ++ "OLD".data ++ mainClose ++ "TAIL".data

/-! ### Re-finding the markers inside a spliced document -/
/-- The document produced by a successful splice at positions `s` (start
marker) and `e` (end marker). -/
def splicedDoc (content sm pre post x : Str) (s e : Nat) : Str :=
  content.take (s + sm.length) ++ pre ++ x ++ post ++ content.drop e

/-- A minimal writeup document containing just the tag-region marker pair
around old inner text. -/
def roundtripDoc : Str := tagContainerStart ++ "OLD".data ++ divClose

/-- A minimal writeup document whose tag region is empty. -/
def idemDoc : Str := tagContainerStart ++ divClose

/-! ### Python string helpers for the content model -/
/-- Python `str.lower()` (per character, as used on titles). -/
def pyLower (t : Str) : Str := t.map Char.toLower

/-- Python `str.replace(a, b)` for single characters. -/
def pyReplace (t : Str) (a b : Char) : Str := t.map fun c => if c = a then b else c

/-- Python `str.replace(a, '')` for a single character: deletion. -/
def pyDelete (t : Str) (a : Char) : Str := t.filter fun c => c != a

/-- The writeup filename derived from a title (`create_writeup`, line 241):
`"writeup-" + title.lower().replace(' ', '-').replace(':', '').replace('.', '') + ".html"`. -/
def writeupFilename (title : Str) : Str :=
  "writeup-".data ++
    pyDelete (pyDelete (pyReplace (pyLower title) ' ' '-') ':') '.' ++ ".html".data

/-- Modelled from the spec: the slug transformation of §3 — lower-cased,
spaces turned into hyphens, colons and periods stripped — as one pass. -/
def specSlug (title : Str) : Str :=
  (pyLower title).foldr
    (fun c acc =>
      if c = ' ' then '-' :: acc else if c = ':' ∨ c = '.' then acc else c :: acc)
    []

/-! ### The content model

State visible to the claims: the set of tag documents on disk (`tagFiles`),
the in-memory tag set `self.existing_tags` (`tagsMem`), and the writeup
list `self.existing_writeups` (each writeup with its title, its filename and
its tag-name list). Within one invocation the writeup documents on disk stay
in sync with the in-memory list (every mutation writes the file), so one
list stands for both. Tag-page, listing-page and writeup-document contents
are modelled only through the splice engine above. All I/O is assumed to
succeed except where an explicit failure flag is taken. -/
structure Writeup where
  title : Str
  filename : Str
  tags : List Str
deriving DecidableEq

structure PState where
  tagFiles : List Str
  tagsMem : List Str
  writeups : List Writeup
deriving DecidableEq

/-- Python `set.add`. -/
def pySetAdd (l : List Str) (x : Str) : List Str := if x ∈ l then l else x :: l

/-- Python `set.discard` (and deleting the file of that name). -/
def pySetDiscard (l : List Str) (x : Str) : List Str := l.filter (fun y => y != x)

/-- One step of `_add_tag_to_writeups` (lines 174-202): find the first
writeup whose lower-cased title equals the lower-cased target title; skip if
none or if it already carries the tag; otherwise append the tag. -/
def applyTagToTitle (name title : Str) : List Writeup → List Writeup
  | [] => []
  | w :: rest =>
    if pyLower w.title = pyLower title then
      if name ∈ w.tags then w :: rest
      else { w with tags := w.tags ++ [name] } :: rest
    else w :: applyTagToTitle name title rest

/-- `create_tag` (lines 146-172): fails if the tag document already exists;
otherwise writes the document, adds the name to the in-memory set and adds
the tag to each resolvable target writeup. -/
def create_tag (st : PState) (name : Str) (targets : List Str) : Bool × PState :=
  if name ∈ st.tagFiles then (false, st)
  else
    (true,
      { tagFiles := name :: st.tagFiles
        tagsMem := pySetAdd st.tagsMem name
        writeups := targets.foldl (fun ws t => applyTagToTitle name t ws) st.writeups })

/-- `create_writeup` (lines 236-288): fails if a writeup document with the
derived filename exists; otherwise runs `create_tag` (no description, no
targets) for every tag not in the in-memory tag set, then writes the
document and appends the writeup. -/
def create_writeup (st : PState) (title : Str) (tags : List Str) : Bool × PState :=
  let fn := writeupFilename title
  if st.writeups.any (fun w => w.filename == fn) then (false, st)
  else
    let st1 := tags.foldl (fun s t => if t ∈ s.tagsMem then s else (create_tag s t []).2) st
    (true,
      { st1 with
          writeups := st1.writeups ++ [{ title := title, filename := fn, tags := tags }] })

/-- `_cleanup_unused_tags` (lines 366-383): delete the tag document of every
tag of the removed writeup that no remaining writeup uses (each deletion
independently; a failing deletion keeps that file). The in-memory tag set is
not touched. -/
def cleanupUnusedTags (tagFiles : List Str) (remaining : List Writeup)
    (tagsToCheck : List Str) (tagUnlinkFails : Str → Bool) : List Str :=
  let allUsed := remaining.foldl (fun acc w => acc ++ w.tags) []
  let unused := tagsToCheck.filter (fun t => !(allUsed.contains t))
  tagFiles.filter (fun t => !(unused.contains t && !(tagUnlinkFails t)))

/-- `remove_writeup` (lines 290-337) with explicit I/O outcomes: whether the
writeup document is on disk, whether deleting it raises, and which tag-file
deletions raise. A raising delete of the writeup document makes the
operation return `False` at once (line 319); a missing document only warns.
On the continuing path the writeup is removed from the model, broken cards
are purged from tag pages, unused tag files are deleted, and the listing
pages are refreshed from the resulting state. -/
def remove_writeup_io (st : PState) (title : Str) (fileOnDisk unlinkFails : Bool)
    (tagUnlinkFails : Str → Bool) : Bool × PState :=
  let fn := writeupFilename title
  match st.writeups.find? (fun w => w.filename == fn) with
  | none => (false, st)
  | some w =>
    if fileOnDisk && unlinkFails then (false, st)
    else
      let ws := st.writeups.eraseP (fun w2 => w2.filename == fn)
      (true,
        { st with
            writeups := ws
            tagFiles := cleanupUnusedTags st.tagFiles ws w.tags tagUnlinkFails })

/-- `remove_writeup` on the all-I/O-succeeds path. -/
def remove_writeup (st : PState) (title : Str) : Bool × PState :=
  remove_writeup_io st title true false (fun _ => false)

/-- One step of `_remove_tag_from_writeups` (lines 420-448): find the first
writeup with matching lower-cased title; skip if none or if it does not
carry the tag; otherwise remove the tag (first occurrence). -/
def removeTagFromTitle (name title : Str) : List Writeup → List Writeup
  | [] => []
  | w :: rest =>
    if pyLower w.title = pyLower title then
      if name ∈ w.tags then { w with tags := w.tags.erase name } :: rest
      else w :: rest
    else w :: removeTagFromTitle name title rest

/-- `remove_tag` (lines 385-418): fails if the tag document does not exist.
Detaches the tag from the given writeups (from every writeup using it when
the list is empty, matching Python truthiness of `from_writeups`); then, if
no writeup still references it, deletes the tag document and discards the
name from the in-memory set. -/
def remove_tag (st : PState) (name : Str) (fromWriteups : List Str) : Bool × PState :=
  if name ∈ st.tagFiles then
    let titles :=
      if fromWriteups.isEmpty then
        (st.writeups.filter (fun w => w.tags.contains name)).map Writeup.title
      else fromWriteups
    let ws := titles.foldl (fun ws t => removeTagFromTitle name t ws) st.writeups
    if ws.any (fun w => w.tags.contains name) then
      (true, { st with writeups := ws })
    else
      (true,
        { tagFiles := pySetDiscard st.tagFiles name
          tagsMem := pySetDiscard st.tagsMem name
          writeups := ws })
  else (false, st)

/-- One command invocation starts by rebuilding the model from disk
(`__init__`, lines 16-30): the in-memory tag set becomes exactly the names
of the tag documents on disk (`_load_existing_tags`), and the writeup list
is recovered from the writeup documents with the same filenames, titles and
tag memberships it was written with. -/
def reload (st : PState) : PState := { st with tagsMem := st.tagFiles }

/-- The four operations of the command surface that the cross-entity
invariant quantifies over. -/
inductive Op where
  | createTag (name : Str) (targets : List Str)
  | createWriteup (title : Str) (tags : List Str)
  | removeTag (name : Str) (fromWriteups : List Str)
  | removeWriteup (title : Str)
deriving DecidableEq

/-- Run one operation as one command invocation: reload from disk, then
perform the operation. -/
def applyOp (st : PState) : Op → PState
  | Op.createTag n ts => (create_tag (reload st) n ts).2
  | Op.createWriteup t tg => (create_writeup (reload st) t tg).2
  | Op.removeTag n f => (remove_tag (reload st) n f).2
  | Op.removeWriteup t => (remove_writeup (reload st) t).2

/-- A sequence of command invocations. -/
def runOps : PState → List Op → PState
  | st, [] => st
  | st, op :: rest => runOps (applyOp st op) rest

/-- Some writeup of the model references tag `t`. -/
def referencedBy (st : PState) (t : Str) : Prop := ∃ w ∈ st.writeups, t ∈ w.tags

/-- Part one of the cross-entity invariant: every tag name in any writeup's
tag set has a tag document on disk. -/
def tagRefsConsistent (st : PState) : Prop :=
  ∀ w ∈ st.writeups, ∀ t ∈ w.tags, t ∈ st.tagFiles

/-- A tag document on disk that no writeup references. -/
def orphanTag (st : PState) (t : Str) : Prop := t ∈ st.tagFiles ∧ ¬ referencedBy st t

instance (st : PState) (t : Str) : Decidable (referencedBy st t) :=
  inferInstanceAs (Decidable (∃ w ∈ st.writeups, t ∈ w.tags))

instance (st : PState) : Decidable (tagRefsConsistent st) :=
  inferInstanceAs (Decidable (∀ w ∈ st.writeups, ∀ t ∈ w.tags, t ∈ st.tagFiles))

instance (st : PState) (t : Str) : Decidable (orphanTag st t) :=
  inferInstanceAs (Decidable (t ∈ st.tagFiles ∧ ¬ referencedBy st t))

/-! ### The global tags listing -/
/-- Lexicographic order on strings by code point, as Python `sorted` uses. -/
def strLe : Str → Str → Bool
  | [], _ => true
  | _ :: _, [] => false
  | a :: as, b :: bs => if a = b then strLe as bs else decide (a < b)

def insertSortedTag (x : Str) : List Str → List Str
  | [] => [x]
  | y :: ys => if strLe x y then x :: y :: ys else y :: insertSortedTag x ys

/-- Python `sorted` over a set of strings: sort the distinct elements. -/
def pySortedTags (l : List Str) : List Str := l.foldr insertSortedTag []

/-- `_generate_tags_grid` (lines 1119-1128) renders one card per element of
`sorted(self.existing_tags)`; this is the list of tag names that get a card,
in card order. -/
def tagsGridCards (st : PState) : List Str := pySortedTags st.tagsMem.dedup

/-! ### Tag extraction from a writeup document (`_extract_writeup_metadata`) -/
/-- Length of the maximal leading run of non-quote characters: the most the
regex class excluding the double quote can consume. -/
def nonQuoteRunLen : Str → Nat
  | [] => 0
  | c :: rest => if c = '"' then 0 else nonQuoteRunLen rest + 1

/-- Greedy backtracking for the capture length: the largest `k` at most the
given bound such that `".html"` follows the `k` captured characters. -/
def greedyDotHtml (rest : Str) : Nat → Option Nat
  | 0 => none
  | k + 1 =>
    if List.isPrefixOf ".html".data (rest.drop (k + 1)) then some (k + 1)
    else greedyDotHtml rest k

/-- One attempted regex match at the head of `l`: literal `tag-`, a greedy
nonempty run of non-quote characters, then literal `.html`; returns the
capture and the remainder after the whole match. -/
def tagLinkAt (l : Str) : Option (Str × Str) :=
  if List.isPrefixOf "tag-".data l then
    let rest := l.drop 4
    match greedyDotHtml rest (nonQuoteRunLen rest) with
    | none => none
    | some k => some (rest.take k, rest.drop (k + 5))
  else none

/-- Leftmost, non-overlapping scan of the whole document, fueled. -/
def tagMatchesAux : Nat → Str → List Str
  | 0, _ => []
  | fuel + 1, l =>
    match tagLinkAt l with
    | some (cap, rest) => cap :: tagMatchesAux fuel rest
    | none =>
      match l with
      | [] => []
      | _ :: t => tagMatchesAux fuel t

/-- The capture list of `re.findall` on the tag-link pattern over a writeup
document (line 87). -/
def tagMatches (content : Str) : List Str := tagMatchesAux content.length content

/-- Deduplication keeping the first occurrence of each element: the
insertion-order deduplication the claim describes. -/
def dedupKeepFirst : List Str → List Str
  | [] => []
  | x :: xs => x :: (dedupKeepFirst xs).filter (fun y => y != x)

/-- Models Python `list(set(xs))` (line 88): its value is some duplicate-free
list with exactly the members of `xs`; the enumeration order of a Python
`set` of strings is implementation-defined (salted string hashing), so every
such list is a possible outcome. -/
def pySetList (xs out : List Str) : Prop := out.Nodup ∧ xs ⊆ out ∧ out ⊆ xs

/-- The tag recovery of `_extract_writeup_metadata` (lines 85-88): `out` is
a possible value of the dedup of the pattern's capture list over the
document. -/
def extractedTags (content : Str) (out : List Str) : Prop :=
  pySetList (tagMatches content) out

instance (xs out : List Str) : Decidable (pySetList xs out) :=
  inferInstanceAs (Decidable (out.Nodup ∧ xs ⊆ out ∧ out ⊆ xs))

instance (content : Str) (out : List Str) : Decidable (extractedTags content out) :=
  inferInstanceAs (Decidable (pySetList (tagMatches content) out))

/-- A one-writeup, one-tag state used for concrete evaluations: writeup
`A` carries tag `x`, whose tag document exists. -/
def demoWriteup : Writeup :=
  { title := "A".data, filename := writeupFilename "A".data, tags := ["x".data] }

def demoState : PState := ⟨["x".data], ["x".data], [demoWriteup]⟩

/-- A document with two distinct tag links, `a` first, then `b`. -/
def twoTagDoc : Str := "\"tag-a.html\" \"tag-b.html\"".data

/-! ### Theorems -/

/-! ### Basic facts about `isMatchAt` and `findFrom` -/
theorem isMatchAt_iff {hay needle : Str} {i : Nat} :
    isMatchAt hay needle i = true ↔ needle <+: hay.drop i := by
  simp [isMatchAt, List.isPrefixOf_iff_prefix]

theorem isMatchAt_lt_length {hay needle : Str} {i : Nat}
    (hne : needle ≠ []) (h : isMatchAt hay needle i = true) : i < hay.length := by
  rw [isMatchAt_iff] at h
  by_contra hlt
  push_neg at hlt
  rw [List.drop_eq_nil_of_le hlt] at h
  exact hne (List.prefix_nil.mp h)

theorem isMatchAt_add_length_le {hay needle : Str} {i : Nat} (hne : needle ≠ [])
    (h : isMatchAt hay needle i = true) : i + needle.length ≤ hay.length := by
  have hi := isMatchAt_lt_length hne h
  rw [isMatchAt_iff] at h
  have := h.length_le
  simp only [List.length_drop] at this
  omega

theorem findFromAux_some {hay needle : Str} {fuel i j : Nat}
    (h : findFromAux hay needle fuel i = some j) :
    i ≤ j ∧ j < i + fuel ∧ isMatchAt hay needle j = true ∧
      ∀ k, i ≤ k → k < j → isMatchAt hay needle k = false := by
  induction fuel generalizing i with
  | zero => simp [findFromAux] at h
  | succ fuel ih =>
    rw [findFromAux] at h
    by_cases hm : isMatchAt hay needle i = true
    · rw [if_pos hm] at h
      cases h
      exact ⟨le_refl _, by omega, hm, fun k hk1 hk2 => absurd hk1 (by omega)⟩
    · rw [if_neg hm] at h
      obtain ⟨h1, h2, h3, h4⟩ := ih h
      refine ⟨by omega, by omega, h3, fun k hk1 hk2 => ?_⟩
      rcases Nat.eq_or_lt_of_le hk1 with rfl | hk
      · exact Bool.eq_false_iff.mpr hm
      · exact h4 k hk hk2

theorem findFromAux_none {hay needle : Str} {fuel i : Nat}
    (h : findFromAux hay needle fuel i = none) :
    ∀ k, i ≤ k → k < i + fuel → isMatchAt hay needle k = false := by
  induction fuel generalizing i with
  | zero => intro k hk1 hk2; omega
  | succ fuel ih =>
    rw [findFromAux] at h
    by_cases hm : isMatchAt hay needle i = true
    · rw [if_pos hm] at h; cases h
    · rw [if_neg hm] at h
      intro k hk1 hk2
      rcases Nat.eq_or_lt_of_le hk1 with rfl | hk
      · exact Bool.eq_false_iff.mpr hm
      · exact ih h k hk (by omega)

theorem findFrom_some {hay needle : Str} {s j : Nat}
    (h : findFrom hay needle s = some j) :
    s ≤ j ∧ isMatchAt hay needle j = true ∧
      ∀ k, s ≤ k → k < j → isMatchAt hay needle k = false := by
  obtain ⟨h1, _, h3, h4⟩ := findFromAux_some h
  exact ⟨h1, h3, h4⟩

theorem findFrom_none {hay needle : Str} {s : Nat} (hne : needle ≠ [])
    (h : findFrom hay needle s = none) :
    ∀ k, s ≤ k → isMatchAt hay needle k = false := by
  intro k hk
  have h' : findFromAux hay needle (hay.length + 1 - s) s = none := h
  by_cases hkl : k < hay.length
  · exact findFromAux_none h' k hk (by omega)
  · by_contra hm
    rw [Bool.not_eq_false] at hm
    exact hkl (isMatchAt_lt_length hne hm)

theorem findFrom_isSome_of_match {hay needle : Str} {s j : Nat} (hne : needle ≠ [])
    (hm : isMatchAt hay needle j = true) (hs : s ≤ j) :
    ∃ r, findFrom hay needle s = some r ∧ r ≤ j := by
  cases hr : findFrom hay needle s with
  | none => exact absurd (findFrom_none hne hr j hs) (by simp [hm])
  | some r =>
    refine ⟨r, rfl, ?_⟩
    by_contra hlt
    push_neg at hlt
    exact absurd ((findFrom_some hr).2.2 j hs hlt) (by simp [hm])

/-- `findFrom` computes the unique "first match at or after `s`". -/
theorem findFrom_eq_some_iff {hay needle : Str} {s j : Nat} (hne : needle ≠ []) :
    findFrom hay needle s = some j ↔
      s ≤ j ∧ isMatchAt hay needle j = true ∧
        ∀ k, s ≤ k → k < j → isMatchAt hay needle k = false := by
  constructor
  · exact findFrom_some
  · rintro ⟨h1, h2, h3⟩
    obtain ⟨r, hr, hrj⟩ := findFrom_isSome_of_match hne h2 h1
    obtain ⟨hr1, hr2, _⟩ := findFrom_some hr
    rcases Nat.eq_or_lt_of_le hrj with rfl | hlt
    · exact hr
    · exact absurd (h3 r hr1 hlt) (by simp [hr2])

/-- Searching from `s` and from `s' ≥ s` agree when there is no match in `[s, s')`. -/
theorem findFrom_eq_of_no_match_before {hay needle : Str} {s s' : Nat} (hne : needle ≠ [])
    (hs : s ≤ s') (hnomatch : ∀ k, s ≤ k → k < s' → isMatchAt hay needle k = false) :
    findFrom hay needle s = findFrom hay needle s' := by
  cases h' : findFrom hay needle s' with
  | none =>
    cases h : findFrom hay needle s with
    | none => rfl
    | some j =>
      obtain ⟨h1, h2, _⟩ := findFrom_some h
      by_cases hj : j < s'
      · exact absurd (hnomatch j h1 hj) (by simp [h2])
      · exact absurd (findFrom_none hne h' j (by omega)) (by simp [h2])
  | some j =>
    obtain ⟨h1, h2, h3⟩ := findFrom_some h'
    rw [findFrom_eq_some_iff hne]
    refine ⟨by omega, h2, fun k hk1 hk2 => ?_⟩
    by_cases hk : k < s'
    · exact hnomatch k hk1 hk
    · exact h3 k (by omega) hk2

theorem noEarlyEm_sound {sm em content : Str} {s : Nat}
    (hno : noEarlyEm sm em = true) (hsm : isMatchAt content sm s = true) :
    ∀ k, k < sm.length → isMatchAt content em (s + k) = false := by
  intro k hk
  by_contra hmm
  rw [Bool.not_eq_false, isMatchAt_iff] at hmm
  rw [isMatchAt_iff] at hsm
  obtain ⟨t, ht⟩ := hsm
  have hdrop : content.drop (s + k) = sm.drop k ++ t := by
    have : content.drop (s + k) = (content.drop s).drop k := by
      rw [List.drop_drop, Nat.add_comm]
    rw [this, ← ht, List.drop_append_eq_append_drop,
      Nat.sub_eq_zero_of_le (le_of_lt hk), List.drop_zero]
  rw [hdrop] at hmm
  have hpre : sm.drop k <+: sm.drop k ++ t := List.prefix_append _ _
  have hor := List.prefix_or_prefix_of_prefix hmm hpre
  have hall := List.all_eq_true.mp hno k (List.mem_range.mpr hk)
  simp only [Bool.not_eq_true', Bool.or_eq_false_iff] at hall
  rcases hor with hor | hor
  · exact absurd ( List.isPrefixOf_iff_prefix.mpr hor) (by simp [hall.1])
  · exact absurd ( List.isPrefixOf_iff_prefix.mpr hor) (by simp [hall.2])

/-- When `sm` matches at `s`, searching `em` from `s` is the same as
searching strictly after the end of the `sm` match, provided no `em`
occurrence can begin inside an `sm` occurrence. -/
theorem findFrom_skip_marker {content sm em : Str} {s : Nat} (hem : em ≠ [])
    (hno : noEarlyEm sm em = true) (hsm : isMatchAt content sm s = true) :
    findFrom content em s = findFrom content em (s + sm.length) := by
  refine findFrom_eq_of_no_match_before hem (by omega) fun k hk1 hk2 => ?_
  have := noEarlyEm_sound hno hsm (k - s) (by omega)
  rwa [Nat.add_sub_cancel' hk1] at this

theorem spliceAt_from_s_eq_spec {content sm em pre post x : Str} (hem : em ≠ [])
    (hno : noEarlyEm sm em = true) :
    spliceAt content sm em pre post x (fun s => s) =
      spliceSpec content sm em pre post x := by
  unfold spliceAt spliceSpec
  cases h : findFrom content sm 0 with
  | none => rfl
  | some s =>
    have hsm := (findFrom_some h).2.1
    dsimp only
    rw [findFrom_skip_marker hem hno hsm]

/-- Claim C1: each of the three region rewrites — the tag-region rewrite
(`_update_writeup_tags`), the per-tag-page rewrite
(`_update_single_tag_page`), and the writeups-listing rewrite
(`_update_writeups_page`) — locates the first occurrence of its start
marker, failing (RegionNotFound, document unchanged: `none`) when it is
absent, and then locates the end marker strictly after the end of the start
marker's match, failing when it is absent from that point on: each equals
`spliceSpec`, the splice modelled from the spec's algorithm. (The listing
rewrites search from `start_pos` rather than strictly after the marker, but
for their marker pair no end-marker occurrence can begin inside a
start-marker occurrence, so the behaviours coincide.) -/
theorem region_splice_search_spec_conformance (content x : Str) :
    updateWriteupTagsDoc content x =
      spliceSpec content tagContainerStart divClose tagSep1 tagSep2 x
    ∧ updateTagPageDoc content x =
      spliceSpec content writeupsContainerStart mainClose nlSep nlSep x
    ∧ updateWriteupsPageDoc content x =
      spliceSpec content writeupsContainerStart mainClose nlSep nlSep x := by
  refine ⟨rfl, ?_, ?_⟩ <;>
    exact spliceAt_from_s_eq_spec (by decide) (by decide)

theorem spliceAt_eq_of_found {content sm em pre post x : Str} {f : Nat → Nat} {s e : Nat}
    (h1 : findFrom content sm 0 = some s) (h2 : findFrom content em (f s) = some e) :
    spliceAt content sm em pre post x f =
      some (content.take (s + sm.length) ++ pre ++ x ++ post ++ content.drop e) := by
  unfold spliceAt
  rw [h1]
  dsimp only
  rw [h2]

theorem take_prefix_splice (a pre x post b : Str) :
    a <+: a ++ pre ++ x ++ post ++ b :=
  ⟨pre ++ x ++ post ++ b, by simp [List.append_assoc]⟩

theorem drop_suffix_splice (a pre x post b : Str) :
    b <:+ a ++ pre ++ x ++ post ++ b :=
  ⟨a ++ pre ++ x ++ post, by simp [List.append_assoc]⟩

/-- Claim C2: when a rewrite's splice succeeds (start marker found at `s`,
end marker matched at `e`), the output document is exactly the input's
prefix up to and including the start marker, the inserted region, and the
input's suffix from the matched end marker (inclusive) to the end: every
byte outside the replaced range is preserved verbatim, for each of the three
rewrites. -/
theorem splice_frame_preservation (content x : Str) (s e : Nat) :
    (findFrom content tagContainerStart 0 = some s →
      findFrom content divClose (s + tagContainerStart.length) = some e →
        updateWriteupTagsDoc content x =
          some (content.take (s + tagContainerStart.length) ++ tagSep1 ++ x ++
            tagSep2 ++ content.drop e) ∧
        content.take (s + tagContainerStart.length) <+:
          content.take (s + tagContainerStart.length) ++ tagSep1 ++ x ++
            tagSep2 ++ content.drop e ∧
        content.drop e <:+
          content.take (s + tagContainerStart.length) ++ tagSep1 ++ x ++
            tagSep2 ++ content.drop e) ∧
    (findFrom content writeupsContainerStart 0 = some s →
      findFrom content mainClose s = some e →
        updateTagPageDoc content x =
          some (content.take (s + writeupsContainerStart.length) ++ nlSep ++ x ++
            nlSep ++ content.drop e) ∧
        content.take (s + writeupsContainerStart.length) <+:
          content.take (s + writeupsContainerStart.length) ++ nlSep ++ x ++
            nlSep ++ content.drop e ∧
        content.drop e <:+
          content.take (s + writeupsContainerStart.length) ++ nlSep ++ x ++
            nlSep ++ content.drop e) ∧
    (findFrom content writeupsContainerStart 0 = some s →
      findFrom content mainClose s = some e →
        updateWriteupsPageDoc content x =
          some (content.take (s + writeupsContainerStart.length) ++ nlSep ++ x ++
            nlSep ++ content.drop e) ∧
        content.take (s + writeupsContainerStart.length) <+:
          content.take (s + writeupsContainerStart.length) ++ nlSep ++ x ++
            nlSep ++ content.drop e ∧
        content.drop e <:+
          content.take (s + writeupsContainerStart.length) ++ nlSep ++ x ++
            nlSep ++ content.drop e) := by
  refine ⟨fun h1 h2 => ?_, fun h1 h2 => ?_, fun h1 h2 => ?_⟩ <;>
    exact ⟨spliceAt_eq_of_found h1 h2, take_prefix_splice _ _ _ _ _,
      drop_suffix_splice _ _ _ _ _⟩

theorem splice_frame_preservation_witness :
    (updateWriteupTagsDoc sampleTagDoc "NEW".data =
      some (sampleTagDoc.take (4 + tagContainerStart.length) ++ tagSep1 ++
        "NEW".data ++ tagSep2 ++ sampleTagDoc.drop 39) ∧
      sampleTagDoc.take (4 + tagContainerStart.length) <+:
        sampleTagDoc.take (4 + tagContainerStart.length) ++ tagSep1 ++
          "NEW".data ++ tagSep2 ++ sampleTagDoc.drop 39 ∧
      sampleTagDoc.drop 39 <:+
        sampleTagDoc.take (4 + tagContainerStart.length) ++ tagSep1 ++
          "NEW".data ++ tagSep2 ++ sampleTagDoc.drop 39) ∧
    (updateTagPageDoc sampleListingDoc "NEW".data =
      some (sampleListingDoc.take (0 + writeupsContainerStart.length) ++ nlSep ++
        "NEW".data ++ nlSep ++ sampleListingDoc.drop 43) ∧
      sampleListingDoc.take (0 + writeupsContainerStart.length) <+:
        sampleListingDoc.take (0 + writeupsContainerStart.length) ++ nlSep ++
          "NEW".data ++ nlSep ++ sampleListingDoc.drop 43 ∧
      sampleListingDoc.drop 43 <:+
        sampleListingDoc.take (0 + writeupsContainerStart.length) ++ nlSep ++
          "NEW".data ++ nlSep ++ sampleListingDoc.drop 43) :=
  ⟨(splice_frame_preservation sampleTagDoc "NEW".data 4 39).1
      (by decide) (by decide),
    (splice_frame_preservation sampleListingDoc "NEW".data 0 43).2.1
      (by decide) (by decide)⟩

theorem prefix_fit_left {l u v : Str} (h : l <+: u ++ v) (hl : l.length ≤ u.length) :
    l <+: u :=
  List.prefix_of_prefix_length_le h (List.prefix_append u v) (by simpa using hl)

theorem marker_pos_le_length {content em : Str} {n e : Nat} (hem : em ≠ [])
    (h2 : findFrom content em n = some e) : n ≤ content.length := by
  have h := findFrom_some h2
  have := isMatchAt_add_length_le hem h.2.1
  have := h.1
  omega

theorem drop_marker_match {content em : Str} {e : Nat}
    (hm : isMatchAt content em e = true) :
    content.drop e = em ++ content.drop (e + em.length) := by
  rw [isMatchAt_iff] at hm
  obtain ⟨t, ht⟩ := hm
  have ht2 : content.drop (e + em.length) = t := by
    rw [← List.drop_drop, ← ht, List.drop_left]
  rw [← ht, ht2]

theorem splicedDoc_split (content sm pre post x : Str) (s e : Nat) :
    splicedDoc content sm pre post x s e =
      content.take (s + sm.length) ++ (pre ++ (x ++ (post ++ content.drop e))) := by
  simp [splicedDoc, List.append_assoc]

theorem splicedDoc_take {content sm pre post x : Str} {s e : Nat}
    (hA : (content.take (s + sm.length)).length = s + sm.length) :
    (splicedDoc content sm pre post x s e).take (s + sm.length) =
      content.take (s + sm.length) := by
  rw [splicedDoc_split]
  exact List.take_left' hA

theorem splicedDoc_drop {content sm pre post x : Str} {s e : Nat}
    (hA : (content.take (s + sm.length)).length = s + sm.length) :
    (splicedDoc content sm pre post x s e).drop (s + sm.length) =
      pre ++ (x ++ (post ++ content.drop e)) := by
  rw [splicedDoc_split]
  exact List.drop_left' hA

/-- After a successful splice, the first occurrence of the start marker in
the result is still at `s`. -/
theorem refind_start_marker {content sm em pre post x : Str} {s e : Nat}
    (hsm : sm ≠ []) (hem : em ≠ [])
    (h1 : findFrom content sm 0 = some s)
    (h2 : findFrom content em (s + sm.length) = some e) :
    findFrom (splicedDoc content sm pre post x s e) sm 0 = some s := by
  have hsl : s + sm.length ≤ content.length := marker_pos_le_length hem h2
  have hA : (content.take (s + sm.length)).length = s + sm.length := by
    rw [List.length_take]; omega
  obtain ⟨-, hms, hmin⟩ := findFrom_some h1
  have hdropk : ∀ k, k ≤ s →
      (splicedDoc content sm pre post x s e).drop k =
        (content.drop k).take (s + sm.length - k) ++
          (pre ++ (x ++ (post ++ content.drop e))) := by
    intro k hk
    rw [splicedDoc_split, List.drop_append_eq_append_drop, hA,
      Nat.sub_eq_zero_of_le (by omega), List.drop_zero, List.drop_take]
  rw [findFrom_eq_some_iff hsm]
  refine ⟨Nat.zero_le _, ?_, ?_⟩
  · rw [isMatchAt_iff, hdropk s (le_refl s)]
    have hsm_take : (content.drop s).take (s + sm.length - s) = sm := by
      rw [Nat.add_sub_cancel_left]
      rw [isMatchAt_iff] at hms
      exact (List.prefix_iff_eq_take.mp hms).symm
    rw [hsm_take]
    exact List.prefix_append _ _
  · intro k hk0 hks
    by_contra hmm
    rw [Bool.not_eq_false, isMatchAt_iff, hdropk k (by omega)] at hmm
    have hfit : sm <+: (content.drop k).take (s + sm.length - k) :=
      prefix_fit_left hmm (by rw [List.length_take, List.length_drop]; omega)
    have : sm <+: content.drop k := hfit.trans ( List.take_prefix _ _)
    exact absurd (hmin k hk0 hks) (by simp [isMatchAt_iff, this])

/-- After a successful splice, the first occurrence of the end marker at or
after the end of the start marker is exactly at the end of the inserted
region, provided the end marker's first occurrence in
`pre ++ x ++ post ++ em` is the trailing `em` itself. -/
theorem refind_end_marker {content sm em pre post x : Str} {s e : Nat}
    (hem : em ≠ [])
    (h2 : findFrom content em (s + sm.length) = some e)
    (hx : findFrom (pre ++ x ++ post ++ em) em 0 =
      some (pre.length + x.length + post.length)) :
    findFrom (splicedDoc content sm pre post x s e) em (s + sm.length) =
      some (s + sm.length + (pre.length + x.length + post.length)) := by
  have hsl : s + sm.length ≤ content.length := marker_pos_le_length hem h2
  have hA : (content.take (s + sm.length)).length = s + sm.length := by
    rw [List.length_take]; omega
  have hMlen : ((pre ++ x) ++ post).length = pre.length + x.length + post.length := by
    simp only [List.length_append]
  have hWlen : ((pre ++ x ++ post ++ em)).length =
      pre.length + x.length + post.length + em.length := by
    simp only [List.length_append]
  obtain ⟨-, hXm, hXmin⟩ := findFrom_some hx
  have hrd : (splicedDoc content sm pre post x s e).drop (s + sm.length) =
      (pre ++ x ++ post ++ em) ++ content.drop (e + em.length) := by
    rw [splicedDoc_drop hA, drop_marker_match (findFrom_some h2).2.1]
    simp [List.append_assoc]
  have hkd : ∀ k, s + sm.length ≤ k →
      k - (s + sm.length) ≤ (pre ++ x ++ post ++ em).length →
      (splicedDoc content sm pre post x s e).drop k =
        (pre ++ x ++ post ++ em).drop (k - (s + sm.length)) ++
          content.drop (e + em.length) := by
    intro k hk hkle
    have h0 : (splicedDoc content sm pre post x s e).drop
        (s + sm.length + (k - (s + sm.length))) =
        (pre ++ x ++ post ++ em).drop (k - (s + sm.length)) ++
          content.drop (e + em.length) := by
      rw [← List.drop_drop, hrd, List.drop_append_eq_append_drop,
        Nat.sub_eq_zero_of_le hkle, List.drop_zero]
    rw [show s + sm.length + (k - (s + sm.length)) = k from by omega] at h0
    exact h0
  rw [findFrom_eq_some_iff hem]
  refine ⟨by omega, ?_, ?_⟩
  · rw [isMatchAt_iff, hkd _ (by omega) (by rw [hWlen]; omega)]
    have hW : ((pre ++ x ++ post ++ em)).drop
        (s + sm.length + (pre.length + x.length + post.length) - (s + sm.length)) =
        em := by
      rw [Nat.add_sub_cancel_left,
        show pre ++ x ++ post ++ em = ((pre ++ x) ++ post) ++ em from by
          simp [List.append_assoc],
        List.drop_left' hMlen]
    rw [hW]
    exact List.prefix_append _ _
  · intro k hk1 hk2
    by_contra hmm
    rw [Bool.not_eq_false, isMatchAt_iff, hkd k hk1 (by rw [hWlen]; omega)] at hmm
    have hfit : em <+: (pre ++ x ++ post ++ em).drop (k - (s + sm.length)) := by
      refine prefix_fit_left hmm ?_
      rw [List.length_drop, hWlen]
      omega
    have hmt : isMatchAt (pre ++ x ++ post ++ em) em (k - (s + sm.length)) = true := by
      rw [isMatchAt_iff]; exact hfit
    have := hXmin (k - (s + sm.length)) (Nat.zero_le _) (by omega)
    rw [this] at hmt
    exact Bool.false_ne_true hmt

/-- Dropping past the whole inserted region lands exactly on the matched end
marker of the original document. -/
theorem splicedDoc_drop_insert {content sm em pre post x : Str} {s e : Nat}
    (hem : em ≠ [])
    (h2 : findFrom content em (s + sm.length) = some e) :
    (splicedDoc content sm pre post x s e).drop
      (s + sm.length + (pre.length + x.length + post.length)) = content.drop e := by
  have hsl : s + sm.length ≤ content.length := marker_pos_le_length hem h2
  have hA : (content.take (s + sm.length)).length = s + sm.length := by
    rw [List.length_take]; omega
  rw [← List.drop_drop, splicedDoc_drop hA,
    show pre ++ (x ++ (post ++ content.drop e)) =
      ((pre ++ x) ++ post) ++ content.drop e from by simp [List.append_assoc],
    List.drop_left' (by simp only [List.length_append])]

/-- Reading the region back out of a spliced document returns the inserted
text together with its separators. -/
theorem readRegion_spliced {content sm em pre post x : Str} {s e : Nat}
    (hsm : sm ≠ []) (hem : em ≠ [])
    (h1 : findFrom content sm 0 = some s)
    (h2 : findFrom content em (s + sm.length) = some e)
    (hx : findFrom (pre ++ x ++ post ++ em) em 0 =
      some (pre.length + x.length + post.length)) :
    readRegion (splicedDoc content sm pre post x s e) sm em =
      some (pre ++ x ++ post) := by
  have hsl : s + sm.length ≤ content.length := marker_pos_le_length hem h2
  have hA : (content.take (s + sm.length)).length = s + sm.length := by
    rw [List.length_take]; omega
  unfold readRegion
  rw [refind_start_marker hsm hem h1 h2]
  dsimp only
  rw [refind_end_marker hem h2 hx]
  dsimp only
  congr 1
  rw [show s + sm.length + (pre.length + x.length + post.length) - (s + sm.length) =
    pre.length + x.length + post.length from by omega]
  rw [splicedDoc_drop hA,
    show pre ++ (x ++ (post ++ content.drop e)) =
      ((pre ++ x) ++ post) ++ content.drop e from by simp [List.append_assoc],
    List.take_left' (by simp only [List.length_append])]

/-- Splicing the same text into an already-spliced document reproduces it,
as long as the second end-marker search finds the re-appended end marker. -/
theorem splice_again {content sm em pre post x : Str} {s e : Nat} (f : Nat → Nat)
    (hsm : sm ≠ []) (hem : em ≠ [])
    (h1 : findFrom content sm 0 = some s)
    (h2 : findFrom content em (s + sm.length) = some e)
    (hf : findFrom (splicedDoc content sm pre post x s e) em (f s) =
      some (s + sm.length + (pre.length + x.length + post.length))) :
    spliceAt (splicedDoc content sm pre post x s e) sm em pre post x f =
      some (splicedDoc content sm pre post x s e) := by
  have hsl : s + sm.length ≤ content.length := marker_pos_le_length hem h2
  have hA : (content.take (s + sm.length)).length = s + sm.length := by
    rw [List.length_take]; omega
  rw [spliceAt_eq_of_found (refind_start_marker hsm hem h1 h2) hf]
  congr 1
  rw [splicedDoc_take hA, splicedDoc_drop_insert hem h2]
  rfl

/-- Claim C3 (counterexample): in the tag-region rewrite, splicing the empty
replacement into a document with a valid marker pair and reading the region
back out yields the two separator strings inserted by the code, not the
empty replacement — so the round-trip does not return exactly `X`. -/
theorem splice_roundtrip_counterexample :
    updateWriteupTagsDoc roundtripDoc [] =
      some (tagContainerStart ++ tagSep1 ++ tagSep2 ++ divClose) ∧
    readRegion (tagContainerStart ++ tagSep1 ++ tagSep2 ++ divClose)
      tagContainerStart divClose = some (tagSep1 ++ tagSep2) ∧
    tagSep1 ++ tagSep2 ≠ ([] : Str) :=
  ⟨by decide, by decide, by decide⟩

/-- Claim C3 (amended): for every document with a valid tag-region marker
pair and every replacement `x` such that the first occurrence of the end
marker in the inserted segment followed by the end marker
(`tagSep1 ++ x ++ tagSep2 ++ divClose`) is the trailing end marker itself,
splicing `x` and reading the region back out yields the replacement framed
by the splice's separators, `tagSep1 ++ x ++ tagSep2` — not `x` alone. -/
theorem splice_roundtrip_amended (content x : Str) (s e : Nat)
    (h1 : findFrom content tagContainerStart 0 = some s)
    (h2 : findFrom content divClose (s + tagContainerStart.length) = some e)
    (hx : findFrom (tagSep1 ++ x ++ tagSep2 ++ divClose) divClose 0 =
      some (tagSep1.length + x.length + tagSep2.length)) :
    updateWriteupTagsDoc content x =
      some (splicedDoc content tagContainerStart tagSep1 tagSep2 x s e) ∧
    readRegion (splicedDoc content tagContainerStart tagSep1 tagSep2 x s e)
      tagContainerStart divClose = some (tagSep1 ++ x ++ tagSep2) :=
  ⟨spliceAt_eq_of_found h1 h2,
    readRegion_spliced (by decide) (by decide) h1 h2 hx⟩

theorem splice_roundtrip_amended_witness :
    updateWriteupTagsDoc sampleTagDoc "NEW".data =
      some (splicedDoc sampleTagDoc tagContainerStart tagSep1 tagSep2 "NEW".data 4 39) ∧
    readRegion (splicedDoc sampleTagDoc tagContainerStart tagSep1 tagSep2 "NEW".data 4 39)
      tagContainerStart divClose = some (tagSep1 ++ "NEW".data ++ tagSep2) :=
  splice_roundtrip_amended sampleTagDoc "NEW".data 4 39
    (by decide) (by decide) (by decide)

/-- Claim C4 (counterexample): with replacement text `"</div>"` — the end
marker itself — the tag-region splice is not idempotent: the second
application matches the copy of the end marker inside the inserted text and
duplicates part of the region. -/
theorem splice_idempotent_counterexample :
    updateWriteupTagsDoc idemDoc divClose =
      some (tagContainerStart ++ tagSep1 ++ divClose ++ tagSep2 ++ divClose) ∧
    updateWriteupTagsDoc
        (tagContainerStart ++ tagSep1 ++ divClose ++ tagSep2 ++ divClose) divClose =
      some (tagContainerStart ++ tagSep1 ++ divClose ++ tagSep2 ++ divClose ++
        tagSep2 ++ divClose) ∧
    (tagContainerStart ++ tagSep1 ++ divClose ++ tagSep2 ++ divClose : Str) ≠
      tagContainerStart ++ tagSep1 ++ divClose ++ tagSep2 ++ divClose ++
        tagSep2 ++ divClose :=
  ⟨by decide, by decide, by decide⟩

/-- Claim C4 (amended): the tag-region rewrite and the per-tag-page rewrite
are idempotent for every document with a valid marker pair and every
replacement `x` such that the first occurrence of the end marker in the
inserted segment followed by the end marker is the trailing end marker
itself (in particular, whenever `x` does not contain the end marker). -/
theorem splice_idempotent_amended (content x : Str) (s e : Nat) :
    (findFrom content tagContainerStart 0 = some s →
      findFrom content divClose (s + tagContainerStart.length) = some e →
      findFrom (tagSep1 ++ x ++ tagSep2 ++ divClose) divClose 0 =
        some (tagSep1.length + x.length + tagSep2.length) →
      updateWriteupTagsDoc content x =
        some (splicedDoc content tagContainerStart tagSep1 tagSep2 x s e) ∧
      updateWriteupTagsDoc
          (splicedDoc content tagContainerStart tagSep1 tagSep2 x s e) x =
        some (splicedDoc content tagContainerStart tagSep1 tagSep2 x s e)) ∧
    (findFrom content writeupsContainerStart 0 = some s →
      findFrom content mainClose (s + writeupsContainerStart.length) = some e →
      findFrom (nlSep ++ x ++ nlSep ++ mainClose) mainClose 0 =
        some (nlSep.length + x.length + nlSep.length) →
      updateTagPageDoc content x =
        some (splicedDoc content writeupsContainerStart nlSep nlSep x s e) ∧
      updateTagPageDoc
          (splicedDoc content writeupsContainerStart nlSep nlSep x s e) x =
        some (splicedDoc content writeupsContainerStart nlSep nlSep x s e)) := by
  constructor
  · intro h1 h2 hx
    refine ⟨spliceAt_eq_of_found h1 h2, ?_⟩
    exact splice_again (fun t => t + tagContainerStart.length)
      (by decide) (by decide) h1 h2 (refind_end_marker (by decide) h2 hx)
  · intro h1 h2 hx
    have hsmm := (findFrom_some h1).2.1
    have hfs : findFrom content mainClose s = some e := by
      rw [findFrom_skip_marker (by decide) (by decide) hsmm]
      exact h2
    refine ⟨spliceAt_eq_of_found h1 hfs, ?_⟩
    have hr1 : findFrom (splicedDoc content writeupsContainerStart nlSep nlSep x s e)
        writeupsContainerStart 0 = some s :=
      refind_start_marker (by decide) (by decide) h1 h2
    have hrsm := (findFrom_some hr1).2.1
    have hf : findFrom (splicedDoc content writeupsContainerStart nlSep nlSep x s e)
        mainClose s =
        some (s + writeupsContainerStart.length +
          (nlSep.length + x.length + nlSep.length)) := by
      rw [findFrom_skip_marker (by decide) (by decide) hrsm]
      exact refind_end_marker (by decide) h2 hx
    exact splice_again (fun t => t) (by decide) (by decide) h1 h2 hf

theorem splice_idempotent_amended_witness :
    (updateWriteupTagsDoc sampleTagDoc "NEW".data =
      some (splicedDoc sampleTagDoc tagContainerStart tagSep1 tagSep2 "NEW".data 4 39) ∧
     updateWriteupTagsDoc
        (splicedDoc sampleTagDoc tagContainerStart tagSep1 tagSep2 "NEW".data 4 39)
        "NEW".data =
      some (splicedDoc sampleTagDoc tagContainerStart tagSep1 tagSep2 "NEW".data 4 39)) ∧
    (updateTagPageDoc sampleListingDoc "NEW".data =
      some (splicedDoc sampleListingDoc writeupsContainerStart nlSep nlSep "NEW".data 0 43) ∧
     updateTagPageDoc
        (splicedDoc sampleListingDoc writeupsContainerStart nlSep nlSep "NEW".data 0 43)
        "NEW".data =
      some (splicedDoc sampleListingDoc writeupsContainerStart nlSep nlSep "NEW".data 0 43)) :=
  ⟨(splice_idempotent_amended sampleTagDoc "NEW".data 4 39).1
      (by decide) (by decide) (by decide),
    (splice_idempotent_amended sampleListingDoc "NEW".data 0 43).2
      (by decide) (by decide) (by decide)⟩

/-! ### Lemmas on the content model -/
theorem pyReplace_cons (c : Char) (l : Str) (a b : Char) :
    pyReplace (c :: l) a b = (if c = a then b else c) :: pyReplace l a b := rfl

theorem pyDelete_cons_ne {c a : Char} (h : c ≠ a) (l : Str) :
    pyDelete (c :: l) a = c :: pyDelete l a := by
  unfold pyDelete
  rw [List.filter_cons_of_pos]
  simpa using h

theorem pyDelete_cons_eq (a : Char) (l : Str) :
    pyDelete (a :: l) a = pyDelete l a := by
  unfold pyDelete
  rw [List.filter_cons_of_neg]
  simp

theorem slug_foldr_eq (l : Str) :
    pyDelete (pyDelete (pyReplace l ' ' '-') ':') '.' =
      l.foldr
        (fun c acc =>
          if c = ' ' then '-' :: acc else if c = ':' ∨ c = '.' then acc else c :: acc)
        [] := by
  induction l with
  | nil => rfl
  | cons c l ih =>
    rw [List.foldr_cons, pyReplace_cons]
    by_cases h1 : c = ' '
    · rw [if_pos h1, if_pos h1,
        pyDelete_cons_ne (show '-' ≠ ':' from by decide),
        pyDelete_cons_ne (show '-' ≠ '.' from by decide), ih]
    · rw [if_neg h1, if_neg h1]
      by_cases h2 : c = ':'
      · subst h2
        rw [pyDelete_cons_eq, ih, if_pos (Or.inl rfl)]
      · by_cases h3 : c = '.'
        · subst h3
          rw [pyDelete_cons_ne (show '.' ≠ ':' from by decide), pyDelete_cons_eq,
            ih, if_pos (Or.inr rfl)]
        · rw [pyDelete_cons_ne h2, pyDelete_cons_ne h3, ih,
            if_neg (by simp [h2, h3])]

/-- The create-writeup fold that auto-creates unknown tags. -/
theorem cwFold_writeups (tags : List Str) (st : PState) :
    (tags.foldl (fun s t => if t ∈ s.tagsMem then s else (create_tag s t []).2) st).writeups =
      st.writeups := by
  induction tags generalizing st with
  | nil => rfl
  | cons hd tl ih =>
    rw [List.foldl_cons, ih]
    by_cases h : hd ∈ st.tagsMem
    · rw [if_pos h]
    · rw [if_neg h]
      unfold create_tag
      by_cases h2 : hd ∈ st.tagFiles
      · rw [if_pos h2]
      · rw [if_neg h2]
        rfl

theorem create_tag_tagFiles_mono {st : PState} {n : Str} (ts : List Str) :
    st.tagFiles ⊆ ((create_tag st n ts).2).tagFiles := by
  unfold create_tag
  by_cases h : n ∈ st.tagFiles
  · rw [if_pos h]
    exact fun a ha => ha
  · rw [if_neg h]
    exact fun a ha => List.mem_cons_of_mem _ ha

theorem cwFold_tagFiles_mono (tags : List Str) (st : PState) :
    st.tagFiles ⊆
      (tags.foldl (fun s t => if t ∈ s.tagsMem then s else (create_tag s t []).2) st).tagFiles := by
  induction tags generalizing st with
  | nil => exact fun a ha => ha
  | cons hd tl ih =>
    rw [List.foldl_cons]
    refine Function.swap List.Subset.trans (ih _) ?_
    by_cases h : hd ∈ st.tagsMem
    · rw [if_pos h]
      exact fun a ha => ha
    · rw [if_neg h]
      exact create_tag_tagFiles_mono []

theorem cwFold_step_tagsMem {st : PState} {hd t : Str}
    (h : t ∈ st.tagsMem) :
    t ∈ ((if hd ∈ st.tagsMem then st else (create_tag st hd []).2)).tagsMem := by
  by_cases hh : hd ∈ st.tagsMem
  · rw [if_pos hh]; exact h
  · rw [if_neg hh]
    unfold create_tag
    by_cases h2 : hd ∈ st.tagFiles
    · rw [if_pos h2]; exact h
    · rw [if_neg h2]
      unfold pySetAdd
      by_cases h3 : hd ∈ st.tagsMem
      · rw [if_pos h3]; exact h
      · rw [if_neg h3]; exact List.mem_cons_of_mem _ h

theorem cwFold_unknown_tag_file (tags : List Str) (st : PState) :
    ∀ t ∈ tags, t ∉ st.tagsMem →
      t ∈ (tags.foldl (fun s t => if t ∈ s.tagsMem then s else (create_tag s t []).2)
        st).tagFiles := by
  induction tags generalizing st with
  | nil => intro t ht; cases ht
  | cons hd tl ih =>
    intro t ht hmem
    rw [List.foldl_cons]
    rcases List.mem_cons.mp ht with rfl | htl
    · refine cwFold_tagFiles_mono tl _ ?_
      rw [if_neg hmem]
      unfold create_tag
      by_cases h2 : t ∈ st.tagFiles
      · rw [if_pos h2]; exact h2
      · rw [if_neg h2]; exact List.mem_cons_self _ _
    · by_cases hth : t ∈ ((if hd ∈ st.tagsMem then st else (create_tag st hd []).2)).tagsMem
      · -- t became known at this step: then it entered the tag set, which
        -- only happens together with its file, or it was the head itself
        by_cases hhd : hd ∈ st.tagsMem
        · rw [if_pos hhd] at hth
          exact absurd hth hmem
        · rw [if_neg hhd] at hth
          unfold create_tag at hth
          by_cases h2 : hd ∈ st.tagFiles
          · rw [if_pos h2] at hth
            exact absurd hth hmem
          · rw [if_neg h2] at hth
            unfold pySetAdd at hth
            rw [if_neg hhd] at hth
            rcases List.mem_cons.mp hth with rfl | hth2
            · refine cwFold_tagFiles_mono tl _ ?_
              rw [if_neg hmem]
              unfold create_tag
              rw [if_neg h2]
              exact List.mem_cons_self _ _
            · exact absurd hth2 hmem
      · exact ih _ t htl hth

/-- Claim C6: `create_writeup` derives the filename slug from the title by
lower-casing, replacing spaces with hyphens and stripping colons and
periods; if a writeup document with that slug already exists the operation
fails returning `False` and changes nothing; calling it twice with the same
title leaves exactly one writeup with that filename in the model. -/
theorem create_writeup_slug_already_exists (st : PState) (title : Str) (tags : List Str) :
    writeupFilename title = "writeup-".data ++ specSlug title ++ ".html".data ∧
    ((st.writeups.any (fun w => w.filename == writeupFilename title)) = true →
      create_writeup st title tags = (false, st)) ∧
    ((st.writeups.any (fun w => w.filename == writeupFilename title)) = false →
      (create_writeup (create_writeup st title tags).2 title tags).1 = false ∧
      (((create_writeup (create_writeup st title tags).2 title tags).2).writeups.filter
        (fun w => w.filename == writeupFilename title)).length = 1) := by
  refine ⟨?_, ?_, ?_⟩
  · unfold writeupFilename specSlug
    rw [slug_foldr_eq]
  · intro h
    simp only [create_writeup]
    rw [if_pos h]
  · intro h
    have hfirst : (create_writeup st title tags).2.writeups =
        st.writeups ++
          [{ title := title, filename := writeupFilename title, tags := tags }] := by
      simp only [create_writeup]
      rw [if_neg (by simp [h]), cwFold_writeups]
    have hany2 : ((create_writeup st title tags).2.writeups.any
        (fun w => w.filename == writeupFilename title)) = true := by
      rw [hfirst, List.any_append]
      simp
    constructor
    · generalize hst1 : (create_writeup st title tags).2 = st1 at hany2
      simp only [create_writeup]
      rw [if_pos hany2]
    · have hsecond : ∀ st1, ((st1.writeups.any
          (fun w => w.filename == writeupFilename title)) = true) →
          (create_writeup st1 title tags).2 = st1 := by
        intro st1 h1
        simp only [create_writeup]
        rw [if_pos h1]
      rw [hsecond _ hany2]
      rw [hfirst, List.filter_append]
      have hleft : st.writeups.filter (fun w => w.filename == writeupFilename title) = [] := by
        rw [List.filter_eq_nil_iff]
        intro a ha
        have := List.any_eq_false.mp h a ha
        simpa using this
      rw [hleft]
      simp

theorem create_writeup_slug_already_exists_witness :
    writeupFilename "Box".data = "writeup-".data ++ specSlug "Box".data ++ ".html".data ∧
    ((create_writeup (create_writeup ⟨[], [], []⟩ "Box".data ["web".data]).2
        "Box".data ["web".data]).1 = false ∧
      (((create_writeup (create_writeup ⟨[], [], []⟩ "Box".data ["web".data]).2
        "Box".data ["web".data]).2).writeups.filter
        (fun w => w.filename == writeupFilename "Box".data)).length = 1) :=
  ⟨(create_writeup_slug_already_exists ⟨[], [], []⟩ "Box".data ["web".data]).1,
    (create_writeup_slug_already_exists ⟨[], [], []⟩ "Box".data ["web".data]).2.2
      (by decide)⟩

/-- Claim C7: when the derived filename is fresh, `create_writeup` always
succeeds — an unknown tag never makes it fail — it appends exactly the new
writeup (auto-creating tags touches no other writeup), and every tag of the
new writeup that is not already in the known tag set ends up with a tag
document, created by the implicit `create_tag` call (no description, no
target writeups) that runs before the writeup document is written. -/
theorem create_writeup_autocreates_unknown_tags (st : PState) (title : Str)
    (tags : List Str)
    (h : (st.writeups.any (fun w => w.filename == writeupFilename title)) = false) :
    (create_writeup st title tags).1 = true ∧
    (create_writeup st title tags).2.writeups =
      st.writeups ++
        [{ title := title, filename := writeupFilename title, tags := tags }] ∧
    ∀ t ∈ tags, t ∉ st.tagsMem → t ∈ (create_writeup st title tags).2.tagFiles := by
  refine ⟨?_, ?_, ?_⟩
  · simp only [create_writeup]
    rw [if_neg (by simp [h])]
  · simp only [create_writeup]
    rw [if_neg (by simp [h]), cwFold_writeups]
  · intro t ht hmem
    simp only [create_writeup]
    rw [if_neg (by simp [h])]
    exact cwFold_unknown_tag_file tags st t ht hmem

theorem create_writeup_autocreates_unknown_tags_witness :
    (create_writeup ⟨[], [], []⟩ "Box".data ["web".data]).1 = true ∧
    (create_writeup ⟨[], [], []⟩ "Box".data ["web".data]).2.writeups =
      [] ++ [{ title := "Box".data
               filename := writeupFilename "Box".data
               tags := ["web".data] }] ∧
    ∀ t ∈ ["web".data], t ∉ ([] : List Str) →
      t ∈ (create_writeup ⟨[], [], []⟩ "Box".data ["web".data]).2.tagFiles :=
  create_writeup_autocreates_unknown_tags ⟨[], [], []⟩ "Box".data ["web".data]
    (by decide)

theorem mem_foldl_tags_acc (ws : List Writeup) (acc : List Str) (t : Str) :
    t ∈ ws.foldl (fun acc w => acc ++ w.tags) acc ↔
      t ∈ acc ∨ ∃ w ∈ ws, t ∈ w.tags := by
  induction ws generalizing acc with
  | nil => simp
  | cons w ws ih =>
    rw [List.foldl_cons, ih]
    simp only [List.mem_append, List.mem_cons]
    constructor
    · rintro ((h | h) | ⟨w', hw', ht'⟩)
      · exact Or.inl h
      · exact Or.inr ⟨w, Or.inl rfl, h⟩
      · exact Or.inr ⟨w', Or.inr hw', ht'⟩
    · rintro (h | ⟨w', h' | hw', ht'⟩)
      · exact Or.inl (Or.inl h)
      · exact Or.inl (Or.inr (h' ▸ ht'))
      · exact Or.inr ⟨w', hw', ht'⟩

theorem cleanup_subset (tf : List Str) (ws : List Writeup) (tc : List Str)
    (f : Str → Bool) : cleanupUnusedTags tf ws tc f ⊆ tf := by
  intro a ha
  unfold cleanupUnusedTags at ha
  exact (List.mem_filter.mp ha).1

theorem cleanup_removes {tf : List Str} {ws : List Writeup} {tc : List Str}
    {f : Str → Bool} {t : Str} (htc : t ∈ tc)
    (hnoref : ∀ w ∈ ws, t ∉ w.tags) (hok : f t = false) :
    t ∉ cleanupUnusedTags tf ws tc f := by
  intro hmem
  unfold cleanupUnusedTags at hmem
  have h2 := (List.mem_filter.mp hmem).2
  have hunused : t ∈ tc.filter
      (fun t => !((ws.foldl (fun acc w => acc ++ w.tags) []).contains t)) := by
    refine List.mem_filter.mpr ⟨htc, ?_⟩
    simp only [Bool.not_eq_true', ← Bool.not_eq_true, List.elem_iff]
    rw [mem_foldl_tags_acc]
    rintro (h | ⟨w, hw, ht⟩)
    · cases h
    · exact hnoref w hw ht
  rw [Bool.not_eq_true', Bool.and_eq_false_iff] at h2
  rcases h2 with h2 | h2
  · rw [← Bool.not_eq_true, List.elem_iff] at h2
    exact h2 hunused
  · simp [hok] at h2

theorem cleanup_keeps_referenced {tf : List Str} {ws : List Writeup} {tc : List Str}
    {f : Str → Bool} {t : Str} (htf : t ∈ tf)
    (href : ∃ w ∈ ws, t ∈ w.tags) :
    t ∈ cleanupUnusedTags tf ws tc f := by
  unfold cleanupUnusedTags
  refine List.mem_filter.mpr ⟨htf, ?_⟩
  simp only [Bool.not_eq_true', Bool.and_eq_false_iff]
  left
  rw [← Bool.not_eq_true, List.elem_iff]
  intro hu
  have := (List.mem_filter.mp hu).2
  rw [Bool.not_eq_true', ← Bool.not_eq_true, List.elem_iff] at this
  exact this ((mem_foldl_tags_acc ws [] t).mpr (Or.inr href))

/-- `find?` returns the first element satisfying the predicate, and `eraseP`
removes exactly that occurrence. -/
theorem find?_eraseP_decomp {p : Writeup → Bool} {l : List Writeup} {a : Writeup}
    (h : l.find? p = some a) :
    ∃ l1 l2, l = l1 ++ a :: l2 ∧ l.eraseP p = l1 ++ l2 := by
  induction l with
  | nil => simp [List.find?] at h
  | cons b l ih =>
    by_cases hb : p b = true
    · rw [List.find?_cons_of_pos _ hb] at h
      cases h
      exact ⟨[], l, rfl, by rw [List.eraseP_cons_of_pos hb]; rfl⟩
    · rw [List.find?_cons_of_neg _ hb] at h
      obtain ⟨l1, l2, h1, h2⟩ := ih h
      refine ⟨b :: l1, l2, by rw [List.cons_append, ← h1], ?_⟩
      rw [List.eraseP_cons_of_neg hb, h2, List.cons_append]

/-- Claim C8 (counterexample): when deleting the writeup document raises, the
`remove_writeup` cascade stops at once with no state change — the writeup
stays in the model and the now-orphaned tag file is not cleaned up — whereas
the success path removes both. This contradicts "the cascade continues with
all subsequent steps regardless". -/
theorem remove_writeup_abort_counterexample :
    remove_writeup_io demoState "A".data true true (fun _ => false) =
      (false, demoState) ∧
    (remove_writeup demoState "A".data).2 = ⟨[], ["x".data], []⟩ :=
  ⟨by decide, by decide⟩

/-- Claim C8 (amended): an exception while deleting the writeup document
aborts the whole cascade — `remove_writeup` returns `False` with nothing
else done. All other per-step failures do not block subsequent steps: a
missing writeup document leaves the cascade identical to the success path,
and, on the continuing path, the writeup leaves the model and every
orphaned tag whose own deletion succeeds is cleaned up even when other tag
deletions fail. -/
theorem remove_writeup_failure_behavior (st : PState) (title : Str)
    (tf : Str → Bool) (d : Bool) :
    remove_writeup_io st title true true tf = (false, st) ∧
    remove_writeup_io st title false d tf = remove_writeup_io st title true false tf ∧
    (∀ w, st.writeups.find? (fun w2 => w2.filename == writeupFilename title) = some w →
      (remove_writeup_io st title true false tf).1 = true ∧
      (remove_writeup_io st title true false tf).2.writeups =
        st.writeups.eraseP (fun w2 => w2.filename == writeupFilename title) ∧
      ∀ t ∈ w.tags, tf t = false →
        (∀ w2 ∈ st.writeups.eraseP (fun w2 => w2.filename == writeupFilename title),
          t ∉ w2.tags) →
        t ∉ (remove_writeup_io st title true false tf).2.tagFiles) := by
  refine ⟨?_, ?_, ?_⟩
  · simp only [remove_writeup_io]
    cases st.writeups.find? (fun w2 => w2.filename == writeupFilename title) with
    | none => rfl
    | some w => rfl
  · simp only [remove_writeup_io]
    cases st.writeups.find? (fun w2 => w2.filename == writeupFilename title) with
    | none => rfl
    | some w =>
      cases d <;> rfl
  · intro w hfind
    simp only [remove_writeup_io]
    rw [hfind]
    exact ⟨rfl, rfl, fun t ht hok hnoref =>
      cleanup_removes ht hnoref hok⟩

theorem remove_writeup_failure_behavior_witness :
    remove_writeup_io demoState "A".data true true (fun _ => false) =
      (false, demoState) ∧
    (remove_writeup_io demoState "A".data true false (fun _ => false)).1 = true ∧
    "x".data ∉
      (remove_writeup_io demoState "A".data true false (fun _ => false)).2.tagFiles := by
  refine ⟨(remove_writeup_failure_behavior demoState "A".data (fun _ => false) false).1,
    ?_, ?_⟩
  · exact ((remove_writeup_failure_behavior demoState "A".data (fun _ => false)
      false).2.2 demoWriteup (by decide)).1
  · exact ((remove_writeup_failure_behavior demoState "A".data (fun _ => false)
      false).2.2 demoWriteup (by decide)).2.2
      "x".data (by decide) rfl (by decide)

theorem mem_insertSortedTag {a x : Str} {l : List Str} :
    a ∈ insertSortedTag x l ↔ a = x ∨ a ∈ l := by
  induction l with
  | nil => simp [insertSortedTag]
  | cons y ys ih =>
    unfold insertSortedTag
    by_cases h : strLe x y = true
    · rw [if_pos h]
      simp
    · rw [if_neg h]
      simp only [List.mem_cons, ih]
      tauto

theorem mem_pySortedTags {a : Str} {l : List Str} :
    a ∈ pySortedTags l ↔ a ∈ l := by
  induction l with
  | nil => simp [pySortedTags]
  | cons x xs ih =>
    unfold pySortedTags at ih ⊢
    rw [List.foldr_cons, mem_insertSortedTag, ih, List.mem_cons]

theorem create_tag_tagsMem_mono {st : PState} {n : Str} (ts : List Str) :
    st.tagsMem ⊆ ((create_tag st n ts).2).tagsMem := by
  unfold create_tag
  by_cases h : n ∈ st.tagFiles
  · rw [if_pos h]
    exact fun a ha => ha
  · rw [if_neg h]
    unfold pySetAdd
    by_cases h2 : n ∈ st.tagsMem
    · rw [if_pos h2]
      exact fun a ha => ha
    · rw [if_neg h2]
      exact fun a ha => List.mem_cons_of_mem _ ha

theorem create_writeup_tagsMem_mono (st : PState) (title : Str) (tags : List Str) :
    st.tagsMem ⊆ ((create_writeup st title tags).2).tagsMem := by
  simp only [create_writeup]
  by_cases h : (st.writeups.any (fun w => w.filename == writeupFilename title)) = true
  · rw [if_pos h]
    exact fun a ha => ha
  · rw [if_neg h]
    show st.tagsMem ⊆ (tags.foldl
      (fun s t => if t ∈ s.tagsMem then s else (create_tag s t []).2) st).tagsMem
    clear h
    induction tags generalizing st with
    | nil => exact fun a ha => ha
    | cons hd tl ih =>
      rw [List.foldl_cons]
      refine Function.swap List.Subset.trans (ih _) ?_
      by_cases hh : hd ∈ st.tagsMem
      · rw [if_pos hh]
        exact fun a ha => ha
      · rw [if_neg hh]
        exact create_tag_tagsMem_mono []

theorem remove_writeup_io_tagsMem (st : PState) (title : Str) (a b : Bool)
    (f : Str → Bool) : ((remove_writeup_io st title a b f).2).tagsMem = st.tagsMem := by
  simp only [remove_writeup_io]
  cases st.writeups.find? (fun w2 => w2.filename == writeupFilename title) with
  | none => rfl
  | some w =>
    dsimp only
    by_cases h : (a && b) = true
    · rw [if_pos h]
    · rw [if_neg h]

theorem remove_tag_discards_tagsMem (st : PState) (n : Str) (fw : List Str)
    (hfile : n ∈ st.tagFiles)
    (hnoref : ¬ referencedBy (remove_tag st n fw).2 n) :
    n ∉ ((remove_tag st n fw).2).tagsMem := by
  simp only [remove_tag] at hnoref ⊢
  rw [if_pos hfile] at hnoref ⊢
  by_cases h : ((if fw.isEmpty then
      (st.writeups.filter (fun w => w.tags.contains n)).map Writeup.title
    else fw).foldl (fun ws t => removeTagFromTitle n t ws) st.writeups).any
      (fun w => w.tags.contains n) = true
  · rw [if_pos h] at hnoref
    obtain ⟨w, hw, hwt⟩ := List.any_eq_true.mp h
    exact absurd ⟨w, hw, List.elem_iff.mp hwt⟩ hnoref
  · rw [if_neg h]
    intro hmem
    unfold pySetDiscard at hmem
    have := (List.mem_filter.mp hmem).2
    simp at this

/-- Claim C10: when `remove_writeup`'s orphan cleanup deletes a tag document
that no remaining writeup references, the tag's name stays in the in-memory
tag set (only the file is unlinked), so the tags listing regenerated at the
end of the same cascade still contains a card linking to the just-deleted
tag document. `create_tag`, `create_writeup` and `remove_writeup` never
shrink the in-memory tag set; only `remove_tag` removes a name from it. -/
theorem cleanup_leaves_stale_tag_set (st : PState) (title t : Str) (w : Writeup)
    (hfind : st.writeups.find? (fun w2 => w2.filename == writeupFilename title) = some w)
    (ht : t ∈ w.tags)
    (hnoref : ∀ w2 ∈ st.writeups.eraseP (fun w2 => w2.filename == writeupFilename title),
      t ∉ w2.tags)
    (htm : t ∈ st.tagsMem) :
    (t ∉ ((remove_writeup st title).2).tagFiles ∧
      t ∈ ((remove_writeup st title).2).tagsMem ∧
      t ∈ tagsGridCards (remove_writeup st title).2) ∧
    (∀ (st2 : PState) (n : Str) (ts : List Str),
      st2.tagsMem ⊆ ((create_tag st2 n ts).2).tagsMem) ∧
    (∀ (st2 : PState) (ti : Str) (tg : List Str),
      st2.tagsMem ⊆ ((create_writeup st2 ti tg).2).tagsMem) ∧
    (∀ (st2 : PState) (ti : Str) (a b : Bool) (f : Str → Bool),
      ((remove_writeup_io st2 ti a b f).2).tagsMem = st2.tagsMem) ∧
    (∀ (st2 : PState) (n : Str) (fw : List Str), n ∈ st2.tagFiles →
      ¬ referencedBy (remove_tag st2 n fw).2 n →
      n ∉ ((remove_tag st2 n fw).2).tagsMem) := by
  have hbody : (remove_writeup st title).2 =
      { st with
          writeups := st.writeups.eraseP (fun w2 => w2.filename == writeupFilename title)
          tagFiles := cleanupUnusedTags st.tagFiles
            (st.writeups.eraseP (fun w2 => w2.filename == writeupFilename title))
            w.tags (fun _ => false) } := by
    simp only [remove_writeup, remove_writeup_io]
    rw [hfind]
    rfl
  refine ⟨⟨?_, ?_, ?_⟩, fun st2 n ts => create_tag_tagsMem_mono ts,
    fun st2 ti tg => create_writeup_tagsMem_mono st2 ti tg,
    fun st2 ti a b f => remove_writeup_io_tagsMem st2 ti a b f,
    fun st2 n fw => remove_tag_discards_tagsMem st2 n fw⟩
  · rw [hbody]
    exact cleanup_removes ht hnoref rfl
  · rw [hbody]
    exact htm
  · rw [hbody]
    unfold tagsGridCards
    rw [mem_pySortedTags, List.mem_dedup]
    exact htm

theorem cleanup_leaves_stale_tag_set_witness :
    ("x".data ∉ ((remove_writeup demoState "A".data).2).tagFiles ∧
      "x".data ∈ ((remove_writeup demoState "A".data).2).tagsMem ∧
      "x".data ∈ tagsGridCards (remove_writeup demoState "A".data).2) ∧
    "x".data ∉ ((remove_tag ⟨["x".data], ["x".data], []⟩ "x".data []).2).tagsMem := by
  have h := cleanup_leaves_stale_tag_set demoState "A".data "x".data demoWriteup
    (by decide) (by decide) (by decide) (by decide)
  exact ⟨h.1, h.2.2.2.2 ⟨["x".data], ["x".data], []⟩ "x".data [] (by decide) (by decide)⟩

theorem mem_dedupKeepFirst {a : Str} {l : List Str} :
    a ∈ dedupKeepFirst l ↔ a ∈ l := by
  induction l with
  | nil => simp [dedupKeepFirst]
  | cons x xs ih =>
    unfold dedupKeepFirst
    simp only [List.mem_cons, List.mem_filter, bne_iff_ne, ne_eq, ih]
    constructor
    · rintro (rfl | ⟨h, -⟩)
      · exact Or.inl rfl
      · exact Or.inr h
    · rintro (rfl | h)
      · exact Or.inl rfl
      · by_cases hx : a = x
        · exact Or.inl hx
        · exact Or.inr ⟨h, hx⟩

theorem nodup_dedupKeepFirst (l : List Str) : (dedupKeepFirst l).Nodup := by
  induction l with
  | nil => simp [dedupKeepFirst]
  | cons x xs ih =>
    unfold dedupKeepFirst
    refine List.Nodup.cons ?_ (List.Nodup.filter _ ih)
    intro hmem
    have := (List.mem_filter.mp hmem).2
    simp at this

/-- Claim C9 (counterexample): on a document whose links are `a` then `b`,
the code's `list(set(...))` contract admits the output `["b", "a"]`, which
is not the insertion-order deduplication `["a", "b"]` of the captures — the
recovered order is not guaranteed to follow the document. -/
theorem extract_tags_order_counterexample :
    extractedTags twoTagDoc ["b".data, "a".data] ∧
    tagMatches twoTagDoc = ["a".data, "b".data] ∧
    dedupKeepFirst (tagMatches twoTagDoc) = ["a".data, "b".data] ∧
    (["b".data, "a".data] : List Str) ≠ ["a".data, "b".data] :=
  ⟨by decide, by decide, by decide, by decide⟩

/-- Claim C9 (amended): every tag list the Entity Extractor can recover is
deduplicated — each tag name occurs once however many times its link pattern
occurs — and has exactly the members of the capture list; the order is
implementation-defined (Python set enumeration) rather than the document's
insertion order, the insertion-order deduplication being one admissible
outcome among others. -/
theorem extract_tags_dedup_membership (content : Str) (out : List Str)
    (h : extractedTags content out) :
    out.Nodup ∧ (∀ t, t ∈ out ↔ t ∈ tagMatches content) ∧
    extractedTags content (dedupKeepFirst (tagMatches content)) := by
  obtain ⟨h1, h2, h3⟩ := h
  refine ⟨h1, fun t => ⟨fun ht => h3 ht, fun ht => h2 ht⟩,
    nodup_dedupKeepFirst _, fun a ha => mem_dedupKeepFirst.mpr ha,
    fun a ha => mem_dedupKeepFirst.mp ha⟩

theorem extract_tags_dedup_membership_witness :
    (["b".data, "a".data] : List Str).Nodup ∧
    (∀ t, t ∈ (["b".data, "a".data] : List Str) ↔ t ∈ tagMatches twoTagDoc) ∧
    extractedTags twoTagDoc (dedupKeepFirst (tagMatches twoTagDoc)) :=
  extract_tags_dedup_membership twoTagDoc ["b".data, "a".data] (by decide)

/-! ### The cross-entity invariant (claim C5) -/
theorem applyTagToTitle_tags_bound {P : Str → Prop} {name title : Str}
    {ws : List Writeup} (hname : P name) (h : ∀ w ∈ ws, ∀ t ∈ w.tags, P t) :
    ∀ w' ∈ applyTagToTitle name title ws, ∀ t ∈ w'.tags, P t := by
  induction ws with
  | nil => intro w' hw'; cases hw'
  | cons w rest ih =>
    intro w' hw' t ht
    unfold applyTagToTitle at hw'
    by_cases hm : pyLower w.title = pyLower title
    · rw [if_pos hm] at hw'
      by_cases htag : name ∈ w.tags
      · rw [if_pos htag] at hw'
        exact h _ hw' t ht
      · rw [if_neg htag] at hw'
        rcases List.mem_cons.mp hw' with rfl | hw2
        · rcases List.mem_append.mp ht with h1 | h1
          · exact h w (List.mem_cons_self _ _) t h1
          · rw [List.mem_singleton.mp h1]
            exact hname
        · exact h _ (List.mem_cons_of_mem _ hw2) t ht
    · rw [if_neg hm] at hw'
      rcases List.mem_cons.mp hw' with rfl | hw2
      · exact h _ (List.mem_cons_self _ _) t ht
      · exact ih (fun w2 h2 t' ht' => h w2 (List.mem_cons_of_mem _ h2) t' ht') _ hw2 t ht

theorem foldApply_tags_bound {P : Str → Prop} {name : Str} (titles : List Str)
    {ws : List Writeup} (hname : P name) (h : ∀ w ∈ ws, ∀ t ∈ w.tags, P t) :
    ∀ w' ∈ titles.foldl (fun ws t => applyTagToTitle name t ws) ws,
      ∀ t ∈ w'.tags, P t := by
  induction titles generalizing ws with
  | nil => exact h
  | cons hd tl ih =>
    rw [List.foldl_cons]
    exact ih (applyTagToTitle_tags_bound hname h)

theorem applyTagToTitle_ref {name title t : Str} {ws : List Writeup}
    (h : ∃ w ∈ ws, t ∈ w.tags) :
    ∃ w' ∈ applyTagToTitle name title ws, t ∈ w'.tags := by
  induction ws with
  | nil => simp at h
  | cons w rest ih =>
    obtain ⟨w0, hw0, ht0⟩ := h
    unfold applyTagToTitle
    by_cases hm : pyLower w.title = pyLower title
    · rw [if_pos hm]
      by_cases htag : name ∈ w.tags
      · rw [if_pos htag]
        exact ⟨w0, hw0, ht0⟩
      · rw [if_neg htag]
        rcases List.mem_cons.mp hw0 with rfl | hw2
        · exact ⟨_, List.mem_cons_self _ _, List.mem_append_left _ ht0⟩
        · exact ⟨w0, List.mem_cons_of_mem _ hw2, ht0⟩
    · rw [if_neg hm]
      rcases List.mem_cons.mp hw0 with rfl | hw2
      · exact ⟨w0, List.mem_cons_self _ _, ht0⟩
      · obtain ⟨w', hw', ht'⟩ := ih ⟨w0, hw2, ht0⟩
        exact ⟨w', List.mem_cons_of_mem _ hw', ht'⟩

theorem foldApply_ref {name t : Str} (titles : List Str) {ws : List Writeup}
    (h : ∃ w ∈ ws, t ∈ w.tags) :
    ∃ w' ∈ titles.foldl (fun ws ti => applyTagToTitle name ti ws) ws, t ∈ w'.tags := by
  induction titles generalizing ws with
  | nil => exact h
  | cons hd tl ih =>
    rw [List.foldl_cons]
    exact ih (applyTagToTitle_ref h)

theorem create_tag_consistent {st : PState} {n : Str} {ts : List Str}
    (h : tagRefsConsistent st) : tagRefsConsistent (create_tag st n ts).2 := by
  unfold create_tag
  by_cases hf : n ∈ st.tagFiles
  · rw [if_pos hf]
    exact h
  · rw [if_neg hf]
    intro w hw t ht
    exact foldApply_tags_bound (P := fun t => t ∈ n :: st.tagFiles) ts
      (List.mem_cons_self _ _)
      (fun w2 hw2 t2 ht2 => List.mem_cons_of_mem _ (h w2 hw2 t2 ht2)) w hw t ht

theorem create_tag_orphan {st : PState} {n t : Str} {ts : List Str}
    (ho : orphanTag (create_tag st n ts).2 t) : orphanTag st t ∨ t = n := by
  unfold create_tag at ho
  by_cases hf : n ∈ st.tagFiles
  · rw [if_pos hf] at ho
    exact Or.inl ho
  · rw [if_neg hf] at ho
    obtain ⟨htf, href⟩ := ho
    rcases List.mem_cons.mp htf with rfl | htf2
    · exact Or.inr rfl
    · exact Or.inl ⟨htf2, fun hr => href (foldApply_ref ts hr)⟩

theorem create_tag_memSub {st : PState} {n : Str}
    (hms : ∀ t ∈ st.tagsMem, t ∈ st.tagFiles) :
    ∀ t ∈ ((create_tag st n []).2).tagsMem, t ∈ ((create_tag st n []).2).tagFiles := by
  unfold create_tag
  by_cases hf : n ∈ st.tagFiles
  · rw [if_pos hf]
    exact hms
  · rw [if_neg hf]
    intro t htm
    unfold pySetAdd at htm
    by_cases h2 : n ∈ st.tagsMem
    · rw [if_pos h2] at htm
      exact List.mem_cons_of_mem _ (hms t htm)
    · rw [if_neg h2] at htm
      rcases List.mem_cons.mp htm with rfl | htm2
      · exact List.mem_cons_self _ _
      · exact List.mem_cons_of_mem _ (hms t htm2)

theorem cwFold_step_memSub {st : PState} {hd : Str}
    (hms : ∀ t ∈ st.tagsMem, t ∈ st.tagFiles) :
    ∀ t ∈ ((if hd ∈ st.tagsMem then st else (create_tag st hd []).2)).tagsMem,
      t ∈ ((if hd ∈ st.tagsMem then st else (create_tag st hd []).2)).tagFiles := by
  by_cases hh : hd ∈ st.tagsMem
  · rw [if_pos hh]
    exact hms
  · rw [if_neg hh]
    exact create_tag_memSub hms

theorem cwFold_tags_have_files (tags : List Str) (st : PState)
    (hms : ∀ t ∈ st.tagsMem, t ∈ st.tagFiles) :
    ∀ t ∈ tags,
      t ∈ ((tags.foldl (fun s t => if t ∈ s.tagsMem then s else (create_tag s t []).2)
        st)).tagFiles := by
  induction tags generalizing st with
  | nil => intro t ht; cases ht
  | cons hd tl ih =>
    intro t ht
    rw [List.foldl_cons]
    rcases List.mem_cons.mp ht with rfl | htl
    · refine cwFold_tagFiles_mono tl _ ?_
      by_cases hh : t ∈ st.tagsMem
      · rw [if_pos hh]
        exact hms t hh
      · rw [if_neg hh]
        unfold create_tag
        by_cases h2 : t ∈ st.tagFiles
        · rw [if_pos h2]
          exact h2
        · rw [if_neg h2]
          exact List.mem_cons_self _ _
    · exact ih _ (cwFold_step_memSub hms) t htl

theorem cwFold_tagFiles_sub (tags : List Str) (st : PState) :
    ∀ a ∈ ((tags.foldl (fun s t => if t ∈ s.tagsMem then s else (create_tag s t []).2)
        st)).tagFiles, a ∈ st.tagFiles ∨ a ∈ tags := by
  induction tags generalizing st with
  | nil => exact fun a ha => Or.inl ha
  | cons hd tl ih =>
    intro a ha
    rw [List.foldl_cons] at ha
    rcases ih _ a ha with h1 | h1
    · by_cases hh : hd ∈ st.tagsMem
      · rw [if_pos hh] at h1
        exact Or.inl h1
      · rw [if_neg hh] at h1
        unfold create_tag at h1
        by_cases h2 : hd ∈ st.tagFiles
        · rw [if_pos h2] at h1
          exact Or.inl h1
        · rw [if_neg h2] at h1
          rcases List.mem_cons.mp h1 with rfl | h3
          · exact Or.inr (List.mem_cons_self _ _)
          · exact Or.inl h3
    · exact Or.inr (List.mem_cons_of_mem _ h1)

theorem create_writeup_consistent {st : PState} {title : Str} {tags : List Str}
    (hms : ∀ t ∈ st.tagsMem, t ∈ st.tagFiles) (h : tagRefsConsistent st) :
    tagRefsConsistent (create_writeup st title tags).2 := by
  simp only [create_writeup]
  by_cases hex : (st.writeups.any fun w => w.filename == writeupFilename title) = true
  · rw [if_pos hex]
    exact h
  · rw [if_neg hex]
    intro w hw t ht
    rcases List.mem_append.mp hw with h1 | h1
    · rw [cwFold_writeups] at h1
      exact cwFold_tagFiles_mono tags st (h w h1 t ht)
    · rw [List.mem_singleton.mp h1] at ht
      exact cwFold_tags_have_files tags st hms t ht

theorem create_writeup_orphan {st : PState} {title t : Str} {tags : List Str}
    (ho : orphanTag (create_writeup st title tags).2 t) : orphanTag st t := by
  simp only [create_writeup] at ho
  by_cases hex : (st.writeups.any fun w => w.filename == writeupFilename title) = true
  · rw [if_pos hex] at ho
    exact ho
  · rw [if_neg hex] at ho
    obtain ⟨htf, href⟩ := ho
    have hnew : t ∉ tags := fun hmem =>
      href ⟨_, List.mem_append_right _ (List.mem_singleton.mpr rfl), hmem⟩
    rcases cwFold_tagFiles_sub tags st t htf with h1 | h1
    · refine ⟨h1, fun hr => href ?_⟩
      obtain ⟨w, hw, hwt⟩ := hr
      exact ⟨w, List.mem_append_left _ ((cwFold_writeups tags st).symm ▸ hw), hwt⟩
    · exact absurd h1 hnew

theorem remove_writeup_consistent {st : PState} {title : Str}
    (h : tagRefsConsistent st) : tagRefsConsistent (remove_writeup st title).2 := by
  simp only [remove_writeup, remove_writeup_io]
  cases hfind : st.writeups.find? (fun w2 => w2.filename == writeupFilename title) with
  | none => exact h
  | some w =>
    dsimp only
    rw [if_neg (by decide)]
    intro w' hw' t ht
    refine cleanup_keeps_referenced ?_ ⟨w', hw', ht⟩
    exact h w' ((List.eraseP_sublist _).subset hw') t ht

theorem remove_writeup_orphan {st : PState} {title t : Str}
    (ho : orphanTag (remove_writeup st title).2 t) : orphanTag st t := by
  simp only [remove_writeup, remove_writeup_io] at ho
  cases hfind : st.writeups.find? (fun w2 => w2.filename == writeupFilename title) with
  | none =>
    rw [hfind] at ho
    exact ho
  | some w =>
    rw [hfind] at ho
    dsimp only at ho
    rw [if_neg (by decide)] at ho
    obtain ⟨htf, href⟩ := ho
    have htf0 : t ∈ st.tagFiles := cleanup_subset _ _ _ _ htf
    refine ⟨htf0, fun hr => ?_⟩
    obtain ⟨w0, hw0, ht0⟩ := hr
    obtain ⟨l1, l2, hdecomp, herase⟩ := find?_eraseP_decomp hfind
    have hw0' : w0 ∈ l1 ++ l2 ∨ t ∈ w.tags := by
      rw [hdecomp] at hw0
      rcases List.mem_append.mp hw0 with h1 | h1
      · exact Or.inl (List.mem_append_left _ h1)
      · rcases List.mem_cons.mp h1 with rfl | h2
        · exact Or.inr ht0
        · exact Or.inl (List.mem_append_right _ h2)
    rcases hw0' with h1 | h1
    · exact href ⟨w0, herase ▸ h1, ht0⟩
    · refine absurd htf (cleanup_removes h1 ?_ rfl)
      intro w2 hw2 ht2
      exact href ⟨w2, hw2, ht2⟩

theorem removeTagFromTitle_tags_bound {P : Str → Prop} {name title : Str}
    {ws : List Writeup} (h : ∀ w ∈ ws, ∀ t ∈ w.tags, P t) :
    ∀ w' ∈ removeTagFromTitle name title ws, ∀ t ∈ w'.tags, P t := by
  induction ws with
  | nil => intro w' hw'; cases hw'
  | cons w rest ih =>
    intro w' hw' t ht
    unfold removeTagFromTitle at hw'
    by_cases hm : pyLower w.title = pyLower title
    · rw [if_pos hm] at hw'
      by_cases htag : name ∈ w.tags
      · rw [if_pos htag] at hw'
        rcases List.mem_cons.mp hw' with rfl | hw2
        · exact h w (List.mem_cons_self _ _) t (List.erase_subset _ _ ht)
        · exact h _ (List.mem_cons_of_mem _ hw2) t ht
      · rw [if_neg htag] at hw'
        exact h _ hw' t ht
    · rw [if_neg hm] at hw'
      rcases List.mem_cons.mp hw' with rfl | hw2
      · exact h _ (List.mem_cons_self _ _) t ht
      · exact ih (fun w2 h2 t' ht' => h w2 (List.mem_cons_of_mem _ h2) t' ht') _ hw2 t ht

theorem foldRemove_tags_bound {P : Str → Prop} {name : Str} (titles : List Str)
    {ws : List Writeup} (h : ∀ w ∈ ws, ∀ t ∈ w.tags, P t) :
    ∀ w' ∈ titles.foldl (fun ws t => removeTagFromTitle name t ws) ws,
      ∀ t ∈ w'.tags, P t := by
  induction titles generalizing ws with
  | nil => exact h
  | cons hd tl ih =>
    rw [List.foldl_cons]
    exact ih (removeTagFromTitle_tags_bound h)

theorem removeTagFromTitle_ref {name title t : Str} {ws : List Writeup}
    (hne : t ≠ name) (h : ∃ w ∈ ws, t ∈ w.tags) :
    ∃ w' ∈ removeTagFromTitle name title ws, t ∈ w'.tags := by
  induction ws with
  | nil => simp at h
  | cons w rest ih =>
    obtain ⟨w0, hw0, ht0⟩ := h
    unfold removeTagFromTitle
    by_cases hm : pyLower w.title = pyLower title
    · rw [if_pos hm]
      by_cases htag : name ∈ w.tags
      · rw [if_pos htag]
        rcases List.mem_cons.mp hw0 with rfl | hw2
        · exact ⟨_, List.mem_cons_self _ _, (List.mem_erase_of_ne hne).mpr ht0⟩
        · exact ⟨w0, List.mem_cons_of_mem _ hw2, ht0⟩
      · rw [if_neg htag]
        exact ⟨w0, hw0, ht0⟩
    · rw [if_neg hm]
      rcases List.mem_cons.mp hw0 with rfl | hw2
      · exact ⟨w0, List.mem_cons_self _ _, ht0⟩
      · obtain ⟨w', hw', ht'⟩ := ih ⟨w0, hw2, ht0⟩
        exact ⟨w', List.mem_cons_of_mem _ hw', ht'⟩

theorem foldRemove_ref {name t : Str} (titles : List Str) {ws : List Writeup}
    (hne : t ≠ name) (h : ∃ w ∈ ws, t ∈ w.tags) :
    ∃ w' ∈ titles.foldl (fun ws ti => removeTagFromTitle name ti ws) ws,
      t ∈ w'.tags := by
  induction titles generalizing ws with
  | nil => exact h
  | cons hd tl ih =>
    rw [List.foldl_cons]
    exact ih (removeTagFromTitle_ref hne h)

theorem remove_tag_consistent {st : PState} {n : Str} {fw : List Str}
    (h : tagRefsConsistent st) : tagRefsConsistent (remove_tag st n fw).2 := by
  simp only [remove_tag]
  by_cases hf : n ∈ st.tagFiles
  · rw [if_pos hf]
    set ws1 := ((if fw.isEmpty then
        (st.writeups.filter (fun w => w.tags.contains n)).map Writeup.title
      else fw).foldl (fun ws t => removeTagFromTitle n t ws) st.writeups) with hws1
    by_cases hany : (ws1.any (fun w => w.tags.contains n)) = true
    · rw [if_pos hany]
      intro w' hw' t ht
      rw [hws1] at hw'
      exact foldRemove_tags_bound _ h w' hw' t ht
    · rw [if_neg hany]
      intro w' hw' t ht
      rw [hws1] at hw'
      have htf := foldRemove_tags_bound _ h w' hw' t ht
      have htn : t ≠ n := by
        intro he
        have hfalse := List.any_eq_false.mp (Bool.not_eq_true _ ▸ hany) w' (hws1 ▸ hw')
        rw [← he] at hfalse
        exact hfalse (List.elem_iff.mpr ht)
      unfold pySetDiscard
      exact List.mem_filter.mpr ⟨htf, by simp [htn]⟩
  · rw [if_neg hf]
    exact h

theorem remove_tag_orphan {st : PState} {n t : Str} {fw : List Str}
    (ho : orphanTag (remove_tag st n fw).2 t) : orphanTag st t := by
  simp only [remove_tag] at ho
  by_cases hf : n ∈ st.tagFiles
  · rw [if_pos hf] at ho
    set ws1 := ((if fw.isEmpty then
        (st.writeups.filter (fun w => w.tags.contains n)).map Writeup.title
      else fw).foldl (fun ws t => removeTagFromTitle n t ws) st.writeups) with hws1
    by_cases hany : (ws1.any (fun w => w.tags.contains n)) = true
    · rw [if_pos hany] at ho
      obtain ⟨htf, href⟩ := ho
      refine ⟨htf, fun hr => href ?_⟩
      by_cases htn : t = n
      · subst htn
        obtain ⟨w, hw, hwt⟩ := List.any_eq_true.mp hany
        exact ⟨w, hw, List.elem_iff.mp hwt⟩
      · exact foldRemove_ref _ htn hr
    · rw [if_neg hany] at ho
      obtain ⟨htf, href⟩ := ho
      have htf2 := (List.mem_filter.mp htf).1
      have htn : t ≠ n := by
        have := (List.mem_filter.mp htf).2
        simpa using this
      exact ⟨htf2, fun hr => href (foldRemove_ref _ htn hr)⟩
  · rw [if_neg hf] at ho
    exact ho

theorem applyOp_consistent {st : PState} {op : Op} (h : tagRefsConsistent st) :
    tagRefsConsistent (applyOp st op) := by
  have h' : tagRefsConsistent (reload st) := h
  cases op with
  | createTag n ts => exact create_tag_consistent h'
  | createWriteup ti tg =>
    have hms : ∀ t ∈ (reload st).tagsMem, t ∈ (reload st).tagFiles := fun t ht => ht
    exact create_writeup_consistent hms h'
  | removeTag n f => exact remove_tag_consistent h'
  | removeWriteup ti => exact remove_writeup_consistent h'

theorem applyOp_orphan {st : PState} {op : Op} {t : Str}
    (ho : orphanTag (applyOp st op) t) :
    orphanTag st t ∨ ∃ ts, op = Op.createTag t ts := by
  cases op with
  | createTag n ts =>
    have ho' : orphanTag ((create_tag (reload st) n ts)).2 t := ho
    rcases create_tag_orphan ho' with h | rfl
    · exact Or.inl h
    · exact Or.inr ⟨ts, rfl⟩
  | createWriteup ti tg =>
    have ho' : orphanTag ((create_writeup (reload st) ti tg)).2 t := ho
    have hc : orphanTag (reload st) t := create_writeup_orphan ho'
    exact Or.inl hc
  | removeTag n f =>
    have ho' : orphanTag ((remove_tag (reload st) n f)).2 t := ho
    have hc : orphanTag (reload st) t := remove_tag_orphan ho'
    exact Or.inl hc
  | removeWriteup ti =>
    have ho' : orphanTag ((remove_writeup (reload st) ti)).2 t := ho
    have hc : orphanTag (reload st) t := remove_writeup_orphan ho'
    exact Or.inl hc

/-- Claim C5 (counterexample): the one-invocation sequence
`CreateTag("x", targets=["ghost"])`, whose target title resolves to no
writeup, leaves a tag document `x` with zero referencing writeups although
it was created explicitly WITH target writeups, and no RemoveWriteup cascade
ever removes it: the claim's disjunction fails for this reachable state. -/
theorem tag_invariant_counterexample :
    orphanTag (runOps ⟨[], [], []⟩ [Op.createTag "x".data ["ghost".data]]) "x".data ∧
    Op.createTag "x".data [] ∉ [Op.createTag "x".data ["ghost".data]] :=
  ⟨by decide, by decide⟩

/-- Claim C5 (amended): across any sequence of command invocations, every
tag name in any writeup's tag set has a tag document on disk; and a tag
document with zero referencing writeups can arise only from an explicit
CreateTag of that very name (possibly one whose target writeups did not
resolve) — CreateWriteup, RemoveTag and RemoveWriteup never leave a new
orphaned tag document behind, RemoveWriteup's cascade deleting every tag
document of the removed writeup that lost its last reference. -/
theorem tag_reference_invariant (st : PState) (ops : List Op) (op : Op) (t : Str) :
    (tagRefsConsistent st → tagRefsConsistent (runOps st ops)) ∧
    (orphanTag (applyOp st op) t → orphanTag st t ∨ ∃ ts, op = Op.createTag t ts) := by
  constructor
  · intro h
    induction ops generalizing st with
    | nil => exact h
    | cons o rest ih => exact ih _ (applyOp_consistent h)
  · exact applyOp_orphan

theorem tag_reference_invariant_witness :
    tagRefsConsistent (runOps demoState [Op.removeWriteup "A".data]) ∧
    (orphanTag ⟨[], [], []⟩ "x".data ∨
      ∃ ts, Op.createTag "x".data ["ghost".data] = Op.createTag "x".data ts) :=
  ⟨(tag_reference_invariant demoState [Op.removeWriteup "A".data]
      (Op.removeWriteup "A".data) "x".data).1 (by decide),
    (tag_reference_invariant ⟨[], [], []⟩ []
      (Op.createTag "x".data ["ghost".data]) "x".data).2 (by decide)⟩

end Portfolio
